import Mathlib

/-!
Verification of the batch ingestion and resumable persistence engine of the
surf-shelter multi-label classifier repository.  The definitions below are a
shallow embedding of the Python sources under
multi_label_model_trainer/src/utils/ (batch_processor.py,
common_crawl_processor.py, batch_data_retriever.py and
data_schemas/common_crawl_processed_schema.py).  Python dictionaries are
embedded as insertion-ordered association lists with in-place replacement,
mirroring dict update semantics; MongoDB collections are association lists in
a DB record; wall-clock timestamps are not modelled.
-/

namespace SurfShelter

/-! ## URL-safe base64 encoding (BatchProcessor.get_base64_encoded)

Python's url.encode() performs UTF-8 encoding of the string and
base64.urlsafe_b64encode encodes the resulting bytes with the alphabet
A-Z a-z 0-9 - _ and trailing = padding.  Both layers are embedded here,
together with decoders used to establish reversibility. -/

/-- UTF-8 encoding of a single unicode code point, as a list of byte values. -/
def utf8EncodeChar (c : Nat) : List Nat :=
  if c < 0x80 then [c]
  else if c < 0x800 then [0xC0 + c / 64, 0x80 + c % 64]
  else if c < 0x10000 then [0xE0 + c / 4096, 0x80 + c / 64 % 64, 0x80 + c % 64]
  else [0xF0 + c / 262144, 0x80 + c / 4096 % 64, 0x80 + c / 64 % 64, 0x80 + c % 64]

/-- UTF-8 encoding of a list of characters (the bytes of Python url.encode()). -/
def utf8Encode : List Char → List Nat
  | [] => []
  | c :: cs => utf8EncodeChar c.toNat ++ utf8Encode cs

/-- One decoding step: reads the leading UTF-8 sequence, returns the decoded
code point and the remaining bytes. -/
def utf8Step (b0 : Nat) (rest : List Nat) : Nat × List Nat :=
  if b0 < 0x80 then (b0, rest)
  else if b0 < 0xE0 then
    match rest with
    | b1 :: rest2 => ((b0 - 0xC0) * 64 + (b1 - 0x80), rest2)
    | [] => (0, [])
  else if b0 < 0xF0 then
    match rest with
    | b1 :: b2 :: rest2 => ((b0 - 0xE0) * 4096 + (b1 - 0x80) * 64 + (b2 - 0x80), rest2)
    | _ => (0, [])
  else
    match rest with
    | b1 :: b2 :: b3 :: rest2 =>
        ((b0 - 0xF0) * 262144 + (b1 - 0x80) * 4096 + (b2 - 0x80) * 64 + (b3 - 0x80), rest2)
    | _ => (0, [])

set_option linter.unnecessarySeqFocus false in
theorem utf8Step_len (b0 : Nat) (rest : List Nat) :
    (utf8Step b0 rest).2.length ≤ rest.length := by
  unfold utf8Step
  split
  · exact Nat.le_refl _
  · split
    · split <;> simp
    · split
      · split <;> simp <;> omega
      · split <;> simp <;> omega

/-- UTF-8 decoding of a byte sequence back to code points. -/
def utf8Decode : List Nat → List Nat
  | [] => []
  | b0 :: rest => (utf8Step b0 rest).1 :: utf8Decode (utf8Step b0 rest).2
termination_by l => l.length
decreasing_by
  have := utf8Step_len b0 rest
  simp only [List.length_cons]
  omega

theorem utf8Decode_cons (b0 : Nat) (rest : List Nat) :
    utf8Decode (b0 :: rest) = (utf8Step b0 rest).1 :: utf8Decode (utf8Step b0 rest).2 := by
  rw [utf8Decode]

theorem utf8Step_one (c : Nat) (h : c < 0x80) (rest : List Nat) :
    utf8Step c rest = (c, rest) := by
  unfold utf8Step
  rw [if_pos h]

theorem utf8Step_two (c : Nat) (h1 : 0x80 ≤ c) (h2 : c < 0x800) (rest : List Nat) :
    utf8Step (192 + c / 64) ((128 + c % 64) :: rest) = (c, rest) := by
  unfold utf8Step
  rw [if_neg (by omega), if_pos (by omega)]
  show (((192 + c / 64) - 192) * 64 + ((128 + c % 64) - 128), rest) = (c, rest)
  have h : ((192 + c / 64) - 192) * 64 + ((128 + c % 64) - 128) = c := by omega
  rw [h]

theorem utf8Step_three (c : Nat) (h1 : 0x800 ≤ c) (h2 : c < 0x10000) (rest : List Nat) :
    utf8Step (224 + c / 4096) ((128 + c / 64 % 64) :: (128 + c % 64) :: rest) = (c, rest) := by
  unfold utf8Step
  rw [if_neg (by omega), if_neg (by omega), if_pos (by omega)]
  show (((224 + c / 4096) - 224) * 4096 + ((128 + c / 64 % 64) - 128) * 64 +
    ((128 + c % 64) - 128), rest) = (c, rest)
  have h : ((224 + c / 4096) - 224) * 4096 + ((128 + c / 64 % 64) - 128) * 64 +
      ((128 + c % 64) - 128) = c := by omega
  rw [h]

theorem utf8Step_four (c : Nat) (h1 : 0x10000 ≤ c) (h2 : c < 0x110000) (rest : List Nat) :
    utf8Step (240 + c / 262144)
      ((128 + c / 4096 % 64) :: (128 + c / 64 % 64) :: (128 + c % 64) :: rest) = (c, rest) := by
  unfold utf8Step
  rw [if_neg (by omega), if_neg (by omega), if_neg (by omega)]
  show (((240 + c / 262144) - 240) * 262144 + ((128 + c / 4096 % 64) - 128) * 4096 +
    ((128 + c / 64 % 64) - 128) * 64 + ((128 + c % 64) - 128), rest) = (c, rest)
  have h : ((240 + c / 262144) - 240) * 262144 + ((128 + c / 4096 % 64) - 128) * 4096 +
      ((128 + c / 64 % 64) - 128) * 64 + ((128 + c % 64) - 128) = c := by omega
  rw [h]

theorem utf8DecodeChar_of_encode (c : Nat) (hc : c < 0x110000) (rest : List Nat) :
    utf8Decode (utf8EncodeChar c ++ rest) = c :: utf8Decode rest := by
  unfold utf8EncodeChar
  by_cases h1 : c < 0x80
  · rw [if_pos h1, List.cons_append, List.nil_append, utf8Decode_cons,
      utf8Step_one c h1]
  · by_cases h2 : c < 0x800
    · rw [if_neg h1, if_pos h2, List.cons_append, List.cons_append, List.nil_append,
        utf8Decode_cons, utf8Step_two c (by omega) h2]
    · by_cases h3 : c < 0x10000
      · rw [if_neg h1, if_neg h2, if_pos h3, List.cons_append, List.cons_append,
          List.cons_append, List.nil_append, utf8Decode_cons,
          utf8Step_three c (by omega) h3]
      · rw [if_neg h1, if_neg h2, if_neg h3, List.cons_append, List.cons_append,
          List.cons_append, List.cons_append, List.nil_append, utf8Decode_cons,
          utf8Step_four c (by omega) hc]

theorem utf8Decode_utf8Encode (cs : List Char) :
    utf8Decode (utf8Encode cs) = cs.map Char.toNat := by
  induction cs with
  | nil => rw [utf8Encode, utf8Decode, List.map_nil]
  | cons c cs ih =>
      have hc : c.toNat < 0x110000 := by
        have h := c.valid
        rcases h with h | ⟨_, h⟩
        · exact Nat.lt_trans h (by norm_num)
        · exact h
      rw [utf8Encode, utf8DecodeChar_of_encode c.toNat hc, ih, List.map_cons]

theorem utf8EncodeChar_bytes_lt (c : Nat) (hc : c < 0x110000) :
    ∀ b ∈ utf8EncodeChar c, b < 256 := by
  intro b hb
  unfold utf8EncodeChar at hb
  by_cases h1 : c < 0x80
  · simp only [if_pos h1, List.mem_singleton] at hb; omega
  · by_cases h2 : c < 0x800
    · simp only [if_neg h1, if_pos h2, List.mem_cons, List.not_mem_nil, or_false] at hb
      rcases hb with hb | hb <;> omega
    · by_cases h3 : c < 0x10000
      · simp only [if_neg h1, if_neg h2, if_pos h3, List.mem_cons, List.not_mem_nil,
          or_false] at hb
        rcases hb with hb | hb | hb <;> omega
      · simp only [if_neg h1, if_neg h2, if_neg h3, List.mem_cons, List.not_mem_nil,
          or_false] at hb
        rcases hb with hb | hb | hb | hb <;> omega

theorem utf8Encode_bytes_lt (cs : List Char) : ∀ b ∈ utf8Encode cs, b < 256 := by
  induction cs with
  | nil => intro b hb; cases hb
  | cons c cs ih =>
      intro b hb
      rw [utf8Encode, List.mem_append] at hb
      rcases hb with hb | hb
      · have hc : c.toNat < 0x110000 := by
          rcases c.valid with h | ⟨_, h⟩
          · exact Nat.lt_trans h (by norm_num)
          · exact h
        exact utf8EncodeChar_bytes_lt c.toNat hc b hb
      · exact ih b hb

/-- The URL-safe base64 alphabet of base64.urlsafe_b64encode. -/
def b64Char (n : Nat) : Char :=
  if n < 26 then Char.ofNat (65 + n)
  else if n < 52 then Char.ofNat (97 + (n - 26))
  else if n < 62 then Char.ofNat (48 + (n - 52))
  else if n = 62 then '-'
  else '_'

/-- Inverse of the alphabet table. -/
def b64CharDec (c : Char) : Nat :=
  if 65 ≤ c.toNat ∧ c.toNat ≤ 90 then c.toNat - 65
  else if 97 ≤ c.toNat ∧ c.toNat ≤ 122 then c.toNat - 97 + 26
  else if 48 ≤ c.toNat ∧ c.toNat ≤ 57 then c.toNat - 48 + 52
  else if c = '-' then 62
  else 63

theorem b64CharDec_b64Char_all : ∀ n : Fin 64, b64CharDec (b64Char n.val) = n.val := by
  decide

theorem b64CharDec_b64Char (n : Nat) (h : n < 64) : b64CharDec (b64Char n) = n :=
  b64CharDec_b64Char_all ⟨n, h⟩

theorem b64Char_ne_pad_all : ∀ n : Fin 64, b64Char n.val ≠ '=' := by decide

theorem b64Char_ne_pad (n : Nat) (h : n < 64) : b64Char n ≠ '=' :=
  b64Char_ne_pad_all ⟨n, h⟩

/-- Base64 encoding of a byte sequence with = padding (base64.urlsafe_b64encode). -/
def b64encodeBytes : List Nat → List Char
  | b0 :: b1 :: b2 :: rest =>
      b64Char (b0 / 4) :: b64Char (b0 % 4 * 16 + b1 / 16) ::
        b64Char (b1 % 16 * 4 + b2 / 64) :: b64Char (b2 % 64) :: b64encodeBytes rest
  | [b0, b1] => [b64Char (b0 / 4), b64Char (b0 % 4 * 16 + b1 / 16),
      b64Char (b1 % 16 * 4), '=']
  | [b0] => [b64Char (b0 / 4), b64Char (b0 % 4 * 16), '=', '=']
  | [] => []

/-- Base64 decoding back to the byte sequence. -/
def b64decodeBytes : List Char → List Nat
  | c0 :: c1 :: c2 :: c3 :: rest =>
      if c3 = '=' then
        if c2 = '=' then [b64CharDec c0 * 4 + b64CharDec c1 / 16]
        else [b64CharDec c0 * 4 + b64CharDec c1 / 16,
          b64CharDec c1 % 16 * 16 + b64CharDec c2 / 4]
      else
        (b64CharDec c0 * 4 + b64CharDec c1 / 16) ::
          (b64CharDec c1 % 16 * 16 + b64CharDec c2 / 4) ::
          (b64CharDec c2 % 4 * 64 + b64CharDec c3) :: b64decodeBytes rest
  | _ => []

theorem b64decode_b64encode : ∀ bs : List Nat, (∀ b ∈ bs, b < 256) →
    b64decodeBytes (b64encodeBytes bs) = bs
  | [], _ => rfl
  | [b0], h => by
      have hb0 : b0 < 256 := h b0 (by simp)
      rw [b64encodeBytes, b64decodeBytes]
      rw [if_pos rfl, if_pos rfl]
      rw [b64CharDec_b64Char (b0 / 4) (by omega),
        b64CharDec_b64Char (b0 % 4 * 16) (by omega)]
      congr 1
      omega
  | [b0, b1], h => by
      have hb0 : b0 < 256 := h b0 (by simp)
      have hb1 : b1 < 256 := h b1 (by simp)
      rw [b64encodeBytes, b64decodeBytes]
      rw [if_pos rfl, if_neg (b64Char_ne_pad (b1 % 16 * 4) (by omega))]
      rw [b64CharDec_b64Char (b0 / 4) (by omega),
        b64CharDec_b64Char (b0 % 4 * 16 + b1 / 16) (by omega),
        b64CharDec_b64Char (b1 % 16 * 4) (by omega)]
      congr 1
      · omega
      · congr 1
        omega
  | b0 :: b1 :: b2 :: rest, h => by
      have hb0 : b0 < 256 := h b0 (by simp)
      have hb1 : b1 < 256 := h b1 (by simp)
      have hb2 : b2 < 256 := h b2 (by simp)
      rw [b64encodeBytes, b64decodeBytes]
      rw [if_neg (b64Char_ne_pad (b2 % 64) (by omega))]
      rw [b64CharDec_b64Char (b0 / 4) (by omega),
        b64CharDec_b64Char (b0 % 4 * 16 + b1 / 16) (by omega),
        b64CharDec_b64Char (b1 % 16 * 4 + b2 / 64) (by omega),
        b64CharDec_b64Char (b2 % 64) (by omega)]
      rw [b64decode_b64encode rest (fun b hb => h b (by simp [hb]))]
      congr 1
      · omega
      · congr 1
        · omega
        · congr 1
          omega

/-- BatchProcessor.get_base64_encoded: UTF-8 encode the url string, then
base64-encode the bytes with the URL-safe alphabet. -/
def get_base64_encoded (url : String) : String :=
  ⟨b64encodeBytes (utf8Encode url.data)⟩

/-- Inverse transform (base64.urlsafe_b64decode followed by bytes.decode). -/
def get_base64_decoded (s : String) : String :=
  ⟨(utf8Decode (b64decodeBytes s.data)).map Char.ofNat⟩

theorem get_base64_decoded_encoded (url : String) :
    get_base64_decoded (get_base64_encoded url) = url := by
  unfold get_base64_decoded get_base64_encoded
  rw [b64decode_b64encode (utf8Encode url.data) (utf8Encode_bytes_lt url.data)]
  rw [utf8Decode_utf8Encode, List.map_map]
  have : (Char.ofNat ∘ Char.toNat) = (id : Char → Char) := by
    funext c
    simp [Function.comp, Char.ofNat_toNat]
  rw [this, List.map_id]

theorem get_base64_encoded_injective (u v : String)
    (h : get_base64_encoded u = get_base64_encoded v) : u = v := by
  have := congrArg get_base64_decoded h
  rwa [get_base64_decoded_encoded, get_base64_decoded_encoded] at this

/-! ## Insertion-ordered association lists

Python dicts and the MongoDB collections are embedded as association lists:
assignment replaces the value in place when the key is present and appends
otherwise, preserving insertion order like a Python dict. -/

/-- Dict lookup. -/
def alFind {α β : Type} [DecidableEq α] : List (α × β) → α → Option β
  | [], _ => none
  | (k1, v1) :: rest, k => if k1 = k then some v1 else alFind rest k

/-- Dict assignment: replace in place if the key exists, else append. -/
def alSet {α β : Type} [DecidableEq α] : List (α × β) → α → β → List (α × β)
  | [], k, v => [(k, v)]
  | (k1, v1) :: rest, k, v =>
      if k1 = k then (k, v) :: rest else (k1, v1) :: alSet rest k v

/-- The keys of an association list, in order. -/
def alKeys {α β : Type} (l : List (α × β)) : List α := l.map Prod.fst

theorem alFind_alSet_same {α β : Type} [DecidableEq α] (l : List (α × β)) (k : α) (v : β) :
    alFind (alSet l k v) k = some v := by
  induction l with
  | nil => simp [alSet, alFind]
  | cons p rest ih =>
      obtain ⟨k1, v1⟩ := p
      rw [alSet]
      by_cases h : k1 = k
      · rw [if_pos h, alFind, if_pos rfl]
      · rw [if_neg h, alFind, if_neg h, ih]

theorem alFind_alSet_diff {α β : Type} [DecidableEq α] (l : List (α × β)) (k k2 : α) (v : β)
    (h : k ≠ k2) : alFind (alSet l k v) k2 = alFind l k2 := by
  induction l with
  | nil => simp [alSet, alFind, h]
  | cons p rest ih =>
      obtain ⟨k1, v1⟩ := p
      rw [alSet]
      by_cases h1 : k1 = k
      · rw [if_pos h1, alFind, if_neg h, alFind, h1, if_neg h]
      · rw [if_neg h1, alFind, alFind]
        by_cases h2 : k1 = k2
        · rw [if_pos h2, if_pos h2]
        · rw [if_neg h2, if_neg h2, ih]

theorem mem_alKeys_iff_isSome {α β : Type} [DecidableEq α] (l : List (α × β)) (k : α) :
    k ∈ alKeys l ↔ (alFind l k).isSome := by
  induction l with
  | nil => simp [alKeys, alFind]
  | cons p rest ih =>
      obtain ⟨k1, v1⟩ := p
      rw [alKeys, List.map_cons, List.mem_cons, alFind]
      by_cases h : k1 = k
      · subst h
        simp
      · rw [if_neg h]
        constructor
        · intro hc
          rcases hc with hc | hc
          · exact absurd hc.symm h
          · exact ih.mp hc
        · intro hs
          exact Or.inr (ih.mpr hs)

theorem alKeys_alSet {α β : Type} [DecidableEq α] (l : List (α × β)) (k : α) (v : β) :
    alKeys (alSet l k v) = if k ∈ alKeys l then alKeys l else alKeys l ++ [k] := by
  induction l with
  | nil => simp [alSet, alKeys]
  | cons p rest ih =>
      obtain ⟨k1, v1⟩ := p
      rw [alSet]
      by_cases h : k1 = k
      · subst h
        rw [if_pos rfl]
        simp [alKeys]
      · rw [if_neg h]
        by_cases hm : k ∈ alKeys rest
        · have hmem : k ∈ alKeys ((k1, v1) :: rest) := by
            simp only [alKeys, List.map_cons, List.mem_cons]
            exact Or.inr hm
          rw [if_pos hmem]
          simp only [alKeys, List.map_cons, List.cons.injEq, true_and]
          have := ih
          rw [if_pos hm] at this
          simpa [alKeys] using this
        · have hmem : k ∉ alKeys ((k1, v1) :: rest) := by
            simp only [alKeys, List.map_cons, List.mem_cons]
            push_neg
            exact ⟨fun hh => h hh.symm, by simpa [alKeys] using hm⟩
          rw [if_neg hmem]
          simp only [alKeys, List.map_cons, List.cons_append, List.cons.injEq, true_and]
          have := ih
          rw [if_neg hm] at this
          simpa [alKeys] using this

theorem length_alSet_of_mem {α β : Type} [DecidableEq α] (l : List (α × β)) (k : α) (v : β)
    (h : k ∈ alKeys l) : (alSet l k v).length = l.length := by
  have := alKeys_alSet l k v
  rw [if_pos h] at this
  have h2 : (alKeys (alSet l k v)).length = (alKeys l).length := by rw [this]
  simpa [alKeys] using h2

theorem length_alSet_of_not_mem {α β : Type} [DecidableEq α] (l : List (α × β)) (k : α) (v : β)
    (h : k ∉ alKeys l) : (alSet l k v).length = l.length + 1 := by
  have := alKeys_alSet l k v
  rw [if_neg h] at this
  have h2 : (alKeys (alSet l k v)).length = (alKeys l ++ [k]).length := by rw [this]
  simpa [alKeys] using h2

theorem length_alSet_le {α β : Type} [DecidableEq α] (l : List (α × β)) (k : α) (v : β) :
    (alSet l k v).length ≤ l.length + 1 := by
  by_cases h : k ∈ alKeys l
  · rw [length_alSet_of_mem l k v h]; omega
  · rw [length_alSet_of_not_mem l k v h]

theorem length_le_alSet {α β : Type} [DecidableEq α] (l : List (α × β)) (k : α) (v : β) :
    l.length ≤ (alSet l k v).length := by
  by_cases h : k ∈ alKeys l
  · rw [length_alSet_of_mem l k v h]
  · rw [length_alSet_of_not_mem l k v h]; omega

theorem nodup_alKeys_alSet {α β : Type} [DecidableEq α] (l : List (α × β)) (k : α) (v : β)
    (h : (alKeys l).Nodup) : (alKeys (alSet l k v)).Nodup := by
  rw [alKeys_alSet]
  by_cases hm : k ∈ alKeys l
  · rwa [if_pos hm]
  · rw [if_neg hm]
    simpa [List.nodup_append] using ⟨h, hm⟩

theorem alSet_of_find_eq {α β : Type} [DecidableEq α] (l : List (α × β)) (k : α) (v : β)
    (h : alFind l k = some v) : alSet l k v = l := by
  induction l with
  | nil => simp [alFind] at h
  | cons p rest ih =>
      obtain ⟨k1, v1⟩ := p
      rw [alFind] at h
      rw [alSet]
      by_cases h1 : k1 = k
      · rw [if_pos h1] at h
        rw [if_pos h1, h1, (Option.some.injEq _ _).mp h]
      · rw [if_neg h1] at h
        rw [if_neg h1, ih h]

theorem alSet_of_find_none {α β : Type} [DecidableEq α] (l : List (α × β)) (k : α) (v : β)
    (h : alFind l k = none) : alSet l k v = l ++ [(k, v)] := by
  induction l with
  | nil => simp [alSet]
  | cons p rest ih =>
      obtain ⟨k1, v1⟩ := p
      rw [alFind] at h
      by_cases h1 : k1 = k
      · rw [if_pos h1] at h
        exact absurd h (by simp)
      · rw [if_neg h1] at h
        rw [alSet, if_neg h1, ih h, List.cons_append]

theorem alFind_eq_none_of_not_mem {α β : Type} [DecidableEq α] (l : List (α × β)) (k : α)
    (h : k ∉ alKeys l) : alFind l k = none := by
  cases hf : alFind l k with
  | none => rfl
  | some v =>
      exact absurd ((mem_alKeys_iff_isSome l k).mpr (by rw [hf]; rfl)) h

/-! ## WebpageData and the batch store schema
(data_schemas/common_crawl_processed_schema.py)

A WebpageData embedded document.  String fields left unset are None in
mongoengine and are dropped both by to_dict and by to_mongo, so they are
embedded as Option String with none meaning absent; list fields default to
the empty list.  With that representation, WebpageData.to_dict followed by
WebpageData.to_webpage_data is the identity, and to_mongo is the identity as
well, so both conversions are embedded as field-by-field copies. -/

structure WebpageData where
  url : String
  html : Option String := none
  embeddedScripts : List String := []
  externalScripts : List String := []
  title : Option String := none
  links : List String := []
  headers : List String := []
deriving DecidableEq

/-- WebpageData.to_dict: emits the set fields of the record; composed with
to_webpage_data (applied by update_batch) it reproduces the same record. -/
def WebpageData.to_dict (d : WebpageData) : WebpageData :=
  { url := d.url
    html := d.html
    embeddedScripts := d.embeddedScripts
    externalScripts := d.externalScripts
    title := d.title
    links := d.links
    headers := d.headers }

theorem WebpageData.to_dict_eq (d : WebpageData) : d.to_dict = d := rfl

/-- Field merge for string fields inside CommonCrawlProcessed.update_batch:
a field absent from the incoming document (None, dropped by to_mongo)
leaves the stored value; any present string value, the empty string
included, overwrites it. -/
def mergeStringField (stored incoming : Option String) : Option String :=
  match incoming with
  | none => stored
  | some s => some s

/-- Field merge for list fields inside CommonCrawlProcessed.update_batch:
empty collections are skipped (the isinstance((list, dict, set)) branch),
non-empty lists overwrite. -/
def mergeListField (stored incoming : List String) : List String :=
  if incoming = [] then stored else incoming

/-- The per-record merge performed by CommonCrawlProcessed.update_batch for a
key already present in the batch: url is kept unchanged, every other field
merged per mergeStringField / mergeListField. -/
def mergeWebpageData (stored incoming : WebpageData) : WebpageData :=
  { url := stored.url
    html := mergeStringField stored.html incoming.html
    embeddedScripts := mergeListField stored.embeddedScripts incoming.embeddedScripts
    externalScripts := mergeListField stored.externalScripts incoming.externalScripts
    title := mergeStringField stored.title incoming.title
    links := mergeListField stored.links incoming.links
    headers := mergeListField stored.headers incoming.headers }

/-- Batch contents: encoded url -> WebpageData, insertion ordered. -/
abbrev Contents : Type := List (String × WebpageData)

/-- The loop body of CommonCrawlProcessed.update_batch over the update map:
merge into existing entries, insert fresh ones. -/
def updateBatchContents (contents : Contents) (updates : List (String × WebpageData)) :
    Contents :=
  updates.foldl (fun c kv =>
    match alFind c kv.1 with
    | some stored => alSet c kv.1 (mergeWebpageData stored kv.2)
    | none => alSet c kv.1 kv.2) contents

/-- The webpages collection: batch_id -> contents. -/
abbrev Store : Type := List (Nat × Contents)

/-- CommonCrawlProcessed.update_batch: fetch the batch (or create an empty
one), merge the update map into its contents, save it back. -/
def CommonCrawlProcessed.update_batch (store : Store) (batch_id : Nat)
    (webpages_update_map : List (String × WebpageData)) : Store :=
  let contents := (alFind store batch_id).getD []
  alSet store batch_id (updateBatchContents contents webpages_update_map)

/-! ## Merge policy over a sequence of partial updates (claim C1)

The specification-side characterisation of accretive enrichment: the value a
field holds after a sequence of partial updates is the latest update that
actually carried the field. -/

/-- The last update in which an optional string field was present (None
updates carry nothing), or the original value when no update carried it. -/
def latestSetString (orig : Option String) (updates : List (Option String)) :
    Option String :=
  match updates.reverse.findSome? (fun x => x) with
  | some v => some v
  | none => orig

/-- The last non-empty value of a list field over a sequence of updates,
or the original value when every update carried the empty list. -/
def latestNonEmptyList (orig : List String) (updates : List (List String)) :
    List String :=
  match updates.reverse.findSome? (fun xs => if xs = [] then none else some xs) with
  | some v => v
  | none => orig

theorem foldl_mergeStringField (us : List (Option String)) (orig : Option String) :
    us.foldl mergeStringField orig = latestSetString orig us := by
  induction us generalizing orig with
  | nil => simp [latestSetString]
  | cons u rest ih =>
      rw [List.foldl_cons, ih]
      unfold latestSetString
      rw [List.reverse_cons, List.findSome?_append]
      cases hr : rest.reverse.findSome? (fun x => x) with
      | some v => simp
      | none =>
          cases u with
          | none => simp [mergeStringField, List.findSome?]
          | some s => simp [mergeStringField, List.findSome?]

theorem foldl_mergeListField (us : List (List String)) (orig : List String) :
    us.foldl mergeListField orig = latestNonEmptyList orig us := by
  induction us generalizing orig with
  | nil => simp [latestNonEmptyList]
  | cons u rest ih =>
      rw [List.foldl_cons, ih]
      unfold latestNonEmptyList
      rw [List.reverse_cons, List.findSome?_append]
      cases hr : rest.reverse.findSome? (fun xs => if xs = [] then none else some xs) with
      | some v => simp
      | none =>
          by_cases hu : u = []
          · subst hu
            simp [mergeListField, List.findSome?]
          · simp [mergeListField, List.findSome?, hu]

theorem foldl_mergeWebpageData_url (ds : List WebpageData) (r : WebpageData) :
    (ds.foldl mergeWebpageData r).url = r.url := by
  induction ds generalizing r with
  | nil => rfl
  | cons d rest ih => rw [List.foldl_cons, ih]; rfl

theorem foldl_mergeWebpageData_fields (ds : List WebpageData) (r : WebpageData) :
    ds.foldl mergeWebpageData r =
      { url := r.url
        html := (ds.map WebpageData.html).foldl mergeStringField r.html
        embeddedScripts :=
          (ds.map WebpageData.embeddedScripts).foldl mergeListField r.embeddedScripts
        externalScripts :=
          (ds.map WebpageData.externalScripts).foldl mergeListField r.externalScripts
        title := (ds.map WebpageData.title).foldl mergeStringField r.title
        links := (ds.map WebpageData.links).foldl mergeListField r.links
        headers := (ds.map WebpageData.headers).foldl mergeListField r.headers } := by
  induction ds generalizing r with
  | nil => rfl
  | cons d rest ih =>
      rw [List.foldl_cons, ih]
      rfl

/-- A sequence of update_batch calls against one batch and one key, in order:
one call per partial record, as performed by BatchProcessor._update_in_batches
across successive runs. -/
def applyUpdates (store : Store) (b : Nat) (k : String) (ds : List WebpageData) : Store :=
  ds.foldl (fun st d => CommonCrawlProcessed.update_batch st b [(k, d)]) store

theorem update_batch_single_step (b : Nat) (k : String) (r d : WebpageData) :
    CommonCrawlProcessed.update_batch [(b, [(k, r)])] b [(k, d)] =
      [(b, [(k, mergeWebpageData r d)])] := by
  simp [CommonCrawlProcessed.update_batch, updateBatchContents, alFind, alSet]

theorem applyUpdates_singleton (b : Nat) (k : String) (ds : List WebpageData)
    (r : WebpageData) :
    applyUpdates [(b, [(k, r)])] b k ds = [(b, [(k, ds.foldl mergeWebpageData r)])] := by
  induction ds generalizing r with
  | nil => rfl
  | cons d rest ih =>
      unfold applyUpdates at ih ⊢
      rw [List.foldl_cons, List.foldl_cons, update_batch_single_step, ih]

theorem update_batch_fresh_single (b : Nat) (k : String) (d0 : WebpageData) :
    CommonCrawlProcessed.update_batch [] b [(k, d0)] = [(b, [(k, d0)])] := by
  simp [CommonCrawlProcessed.update_batch, updateBatchContents, alFind, alSet]

/-- C1 (amended), claim: for merges via update_batch into an existing key, every
field that is present in the incoming partial record overwrites the stored
field — for string fields even a present-but-empty value overwrites; absent
(None) fields and empty collections never erase stored values; the url field is
never modified; hence the final stored record holds, per string field, the
latest present value (the empty string included) and, per list field, the
latest non-empty value, falling back to the first write. -/
theorem claim1_merge_policy (b : Nat) (k : String) (d0 : WebpageData)
    (ds : List WebpageData) :
    alFind (applyUpdates (CommonCrawlProcessed.update_batch [] b [(k, d0)]) b k ds) b =
      some [(k,
        { url := d0.url
          html := latestSetString d0.html (ds.map WebpageData.html)
          embeddedScripts :=
            latestNonEmptyList d0.embeddedScripts (ds.map WebpageData.embeddedScripts)
          externalScripts :=
            latestNonEmptyList d0.externalScripts (ds.map WebpageData.externalScripts)
          title := latestSetString d0.title (ds.map WebpageData.title)
          links := latestNonEmptyList d0.links (ds.map WebpageData.links)
          headers := latestNonEmptyList d0.headers (ds.map WebpageData.headers) })] := by
  rw [update_batch_fresh_single, applyUpdates_singleton, foldl_mergeWebpageData_fields]
  rw [foldl_mergeStringField, foldl_mergeStringField, foldl_mergeListField,
    foldl_mergeListField, foldl_mergeListField, foldl_mergeListField]
  rw [alFind, if_pos rfl]

/-- C1 counterexample: the claim states that empty incoming fields never erase
previously-stored non-empty values, but an incoming record whose html field is
the empty string (present but empty) does erase stored non-empty markup: after
storing html "x" and merging an update with html "", the stored html is ""
rather than the claimed "x". -/
theorem claim1_counterexample :
    alFind ((alFind (CommonCrawlProcessed.update_batch
        (CommonCrawlProcessed.update_batch [] 1 [("k", { url := "u", html := some "x" })])
        1 [("k", { url := "u", html := some "" })]) 1).getD []) "k" =
      some { url := "u", html := some "" } ∧
      (some "" : Option String) ≠ some "x" := by
  constructor
  · rfl
  · decide

/-! ## BatchProcessor state machine (batch_processor.py)

The processor state and the MongoDB collections it touches, with an event
trace recording the order of durable writes performed during commits. -/

/-- Observable durable-write events, in program order: a batch save to the
webpages collection (CommonCrawlProcessed.update_batch), a bulk upsert to the
url_lookup_table (WebpageUrlLookup.bulk_update_webpage_lookup), and an
IndexTracking upsert (BatchProcessor.update_index_tracking, the
progress-cursor advance). -/
inductive Event where
  | storeWrite (batch_id : Nat)
  | lookupAssign
  | cursorAdvance
deriving DecidableEq

/-- The durable MongoDB state: the webpages collection, the url_lookup_table
collection, and the IndexTracking singleton (last_batch_id, last_item_index);
the updated_at timestamp is not modelled. -/
structure DB where
  webpages : Store := []
  lookup : List (String × Nat) := []
  tracking : Option (Nat × Nat) := none
deriving DecidableEq

/-- The in-memory BatchProcessor fields. -/
structure Proc where
  batch_size : Nat
  last_updated_batch_id : Nat
  last_item_index : Nat
  last_batch : Contents
  batch_contents : Contents
  batch_id : Nat
deriving DecidableEq

/-- WebpageUrlLookup.bulk_update_webpage_lookup: a bulk of UpdateOne upserts,
each setting batch_id for its pageUrl key. -/
def WebpageUrlLookup.bulk_update_webpage_lookup (lookup : List (String × Nat))
    (updates : List (String × Nat)) : List (String × Nat) :=
  updates.foldl (fun l kv => alSet l kv.1 kv.2) lookup

/-- WebpageUrlLookup.bulk_data_lookup: the documents whose pageUrl is among
the requested keys, read in collection order (the result dict). -/
def WebpageUrlLookup.bulk_data_lookup (lookup : List (String × Nat))
    (encoded_page_urls : List String) : List (String × Nat) :=
  lookup.filter (fun e => encoded_page_urls.contains e.1)

/-- BatchProcessor._fetch_last_batch: contents of the batch numbered
last_updated_batch_id, or empty when that batch does not exist. -/
def BatchProcessor.fetch_last_batch (db : DB) (proc : Proc) : Contents :=
  (alFind db.webpages proc.last_updated_batch_id).getD []

/-- BatchProcessor._append_last_batch_info: resume the partially-filled batch
when last_item_index > 0 (keeping the batch id), otherwise open a fresh empty
buffer under the next batch id.  Note that Python's truthiness test
(self.last_batch if self.last_batch else fetch) treats both None and the
empty dict as absent, embedded as the empty list. -/
def BatchProcessor.append_last_batch_info (db : DB) (proc : Proc) : Proc :=
  if proc.last_item_index > 0 then
    { proc with
      batch_contents :=
        if proc.last_batch ≠ [] then proc.last_batch
        else BatchProcessor.fetch_last_batch db proc
      batch_id := proc.last_updated_batch_id }
  else
    { proc with batch_contents := [], batch_id := proc.last_updated_batch_id + 1 }

/-- BatchProcessor.__init__ together with _initialize_last_batch_values:
batch_size 100, tracking state read from the IndexTracking document with
zero defaults, then _append_last_batch_info. -/
def BatchProcessor.init (db : DB) : Proc :=
  let lb := match db.tracking with | some t => t.1 | none => 0
  let li := match db.tracking with | some t => t.2 | none => 0
  BatchProcessor.append_last_batch_info db
    { batch_size := 100, last_updated_batch_id := lb, last_item_index := li,
      last_batch := [], batch_contents := [], batch_id := 0 }

/-- BatchProcessor._process_batch: save the current buffer as batch
batch_id, bulk-update the lookup entries (a no-op write when the update
list is empty, as bulk_update_webpage_lookup returns immediately), record
the partial/full commit in the tracking fields and re-run
_append_last_batch_info.  The caller clears the shared lookup_updates list. -/
def BatchProcessor.process_batch (db : DB) (proc : Proc)
    (lookup_updates : List (String × Nat)) (isPartialBatch : Bool) :
    DB × Proc × List Event :=
  let db1 : DB := { db with
    webpages := CommonCrawlProcessed.update_batch db.webpages proc.batch_id
      proc.batch_contents }
  let db2 : DB :=
    if lookup_updates = [] then db1
    else { db1 with
      lookup := WebpageUrlLookup.bulk_update_webpage_lookup db1.lookup lookup_updates }
  let evs := Event.storeWrite proc.batch_id ::
    (if lookup_updates = [] then [] else [Event.lookupAssign])
  let proc1 : Proc := { proc with
    last_updated_batch_id := proc.batch_id
    last_item_index := if isPartialBatch then proc.batch_contents.length else 0
    last_batch := if isPartialBatch then proc.batch_contents else [] }
  (db2, BatchProcessor.append_last_batch_info db2 proc1, evs)

/-- The loop of BatchProcessor._insert_batch: append each (encoded url, item)
pair to the pending lookup updates and the buffer, committing a full batch
whenever the buffer reaches batch_size. -/
def BatchProcessor.insertLoop (db : DB) (proc : Proc) (pending : List (String × Nat)) :
    List (String × WebpageData) → DB × Proc × List (String × Nat) × List Event
  | [] => (db, proc, pending, [])
  | (k, v) :: rest =>
      let pending1 := pending ++ [(k, proc.batch_id)]
      let proc1 : Proc := { proc with batch_contents := alSet proc.batch_contents k v }
      if proc.batch_size ≤ proc1.batch_contents.length then
        match BatchProcessor.process_batch db proc1 pending1 false with
        | (db2, proc2, evs) =>
          match BatchProcessor.insertLoop db2 proc2 [] rest with
          | (db3, proc3, pend3, evs2) => (db3, proc3, pend3, evs ++ evs2)
      else BatchProcessor.insertLoop db proc1 pending1 rest

/-- BatchProcessor._insert_batch: run the loop, then commit whatever remains
in the buffer as a partial batch. -/
def BatchProcessor.insert_batch (db : DB) (proc : Proc)
    (data : List (String × WebpageData)) : DB × Proc × List Event :=
  match BatchProcessor.insertLoop db proc [] data with
  | (db1, proc1, pending, evs) =>
      if proc1.batch_contents ≠ [] then
        match BatchProcessor.process_batch db1 proc1 pending true with
        | (db2, proc2, evs2) => (db2, proc2, evs ++ evs2)
      else (db1, proc1, evs)

/-- BatchProcessor.map_encoded_urls_to_data: the dict comprehension mapping
each url to its Base64 key with the page data in dict form. -/
def BatchProcessor.map_encoded_urls_to_data
    (batch_contents : List (String × WebpageData)) : List (String × WebpageData) :=
  batch_contents.foldl (fun acc p => alSet acc (get_base64_encoded p.1) p.2.to_dict) []

/-- BatchProcessor.update_index_tracking: atomic upsert of the IndexTracking
singleton from the processor's tracking fields. -/
def BatchProcessor.update_index_tracking (db : DB) (proc : Proc) : DB :=
  { db with tracking := some (proc.last_updated_batch_id, proc.last_item_index) }

/-- BatchProcessor.insert_webpage_data: encode the urls, insert in batches,
then update the index tracking. -/
def BatchProcessor.insert_webpage_data (db : DB) (proc : Proc)
    (batch_contents : List (String × WebpageData)) : DB × Proc × List Event :=
  if batch_contents = [] then (db, proc, [])
  else
    match BatchProcessor.insert_batch db proc
        (BatchProcessor.map_encoded_urls_to_data batch_contents) with
    | (db1, proc1, evs) =>
        (BatchProcessor.update_index_tracking db1 proc1, proc1,
          evs ++ [Event.cursorAdvance])

/-- BatchProcessor._update_in_batches: one update_batch call per batch id. -/
def BatchProcessor.update_in_batches (db : DB)
    (data : List (Nat × List (String × WebpageData))) : DB × List Event :=
  data.foldl (fun acc bm =>
    ({ acc.1 with
        webpages := CommonCrawlProcessed.update_batch acc.1.webpages bm.1 bm.2 },
      acc.2 ++ [Event.storeWrite bm.1])) (db, [])

/-- Inserting one page into the nested dict batch_id -> encoded url -> data
built by BatchProcessor.update_webpage_data. -/
def addToGroups (groups : List (Nat × List (String × WebpageData))) (b : Nat)
    (k : String) (v : WebpageData) : List (Nat × List (String × WebpageData)) :=
  match alFind groups b with
  | some m => alSet groups b (alSet m k v)
  | none => groups ++ [(b, [(k, v)])]

/-- The classification loop of BatchProcessor.update_webpage_data: pages whose
encoded url has a lookup entry are grouped under their current batch id,
the rest are collected as new contents. -/
def BatchProcessor.classifyContents (existing : List (String × Nat))
    (safe_url_map : List (String × WebpageData)) :
    List (String × WebpageData) × List (Nat × List (String × WebpageData)) :=
  safe_url_map.foldl (fun acc kv =>
    match alFind existing kv.1 with
    | some b => (acc.1, addToGroups acc.2 b kv.1 kv.2)
    | none => (alSet acc.1 kv.1 kv.2, acc.2)) ([], [])

/-- BatchProcessor.update_webpage_data: look up which encoded urls already
have a batch, insert the new ones in batches, merge the existing ones into
their owning batches.  Note that no index tracking update is performed. -/
def BatchProcessor.update_webpage_data (db : DB) (proc : Proc)
    (batch_contents : List (String × WebpageData)) : DB × Proc × List Event :=
  if batch_contents = [] then (db, proc, [])
  else
    let safe_url_map := BatchProcessor.map_encoded_urls_to_data batch_contents
    let existing := WebpageUrlLookup.bulk_data_lookup db.lookup (alKeys safe_url_map)
    match BatchProcessor.classifyContents existing safe_url_map with
    | (new_contents, inserted_contents) =>
        match (if new_contents ≠ [] then
                BatchProcessor.insert_batch db proc new_contents
              else (db, proc, [])) with
        | (db1, proc1, evs1) =>
            match (if inserted_contents ≠ [] then
                    BatchProcessor.update_in_batches db1 inserted_contents
                  else (db1, [])) with
            | (db2, evs2) => (db2, proc1, evs1 ++ evs2)

/-- BatchProcessor.count_documents: number of stored batches. -/
def BatchProcessor.count_documents (db : DB) : Nat := db.webpages.length

/-! ## CommonCrawlProcessor.store_batch_in_mongodb (common_crawl_processor.py) -/

inductive RawFileType where
  | wat
  | warc
deriving DecidableEq

/-- The accumulation loop of store_batch_in_mongodb: convert each page dict
to a WebpageData instance (the identity in this embedding), and flush a full
buffer through insert_webpage_data for WAT runs or update_webpage_data for
WARC runs. -/
def storeBatchLoop (ft : RawFileType) (db : DB) (proc : Proc)
    (buf : List (String × WebpageData)) :
    List (String × WebpageData) → DB × Proc × List (String × WebpageData) × List Event
  | [] => (db, proc, buf, [])
  | (u, d) :: rest =>
      let buf1 := alSet buf u d
      if proc.batch_size ≤ buf1.length then
        match (match ft with
               | RawFileType.wat => BatchProcessor.insert_webpage_data db proc buf1
               | RawFileType.warc => BatchProcessor.update_webpage_data db proc buf1) with
        | (db1, proc1, evs) =>
            match storeBatchLoop ft db1 proc1 [] rest with
            | (db2, proc2, buf2, evs2) => (db2, proc2, buf2, evs ++ evs2)
      else storeBatchLoop ft db proc buf1 rest

/-- CommonCrawlProcessor.store_batch_in_mongodb: accumulate and flush full
buffers per the file type; any remaining data below the batch-size limit is
passed to insert_webpage_data regardless of the file type. -/
def CommonCrawlProcessor.store_batch_in_mongodb (ft : RawFileType) (db : DB)
    (proc : Proc) (page_data : List (String × WebpageData)) : DB × Proc × List Event :=
  if page_data = [] then (db, proc, [])
  else
    match storeBatchLoop ft db proc [] page_data with
    | (db1, proc1, buf, evs) =>
        if buf ≠ [] then
          match BatchProcessor.insert_webpage_data db1 proc1 buf with
          | (db2, proc2, evs2) => (db2, proc2, evs ++ evs2)
        else (db1, proc1, evs)

/-- One ingestion run: a freshly constructed BatchProcessor (reading the
durable tracking state) storing the extracted page data. -/
def ingestRun (ft : RawFileType) (db : DB)
    (page_data : List (String × WebpageData)) : DB :=
  (CommonCrawlProcessor.store_batch_in_mongodb ft db (BatchProcessor.init db) page_data).1

/-! ## Operation sequences over one processor instance -/

/-- An engine operation: a batch insert or a merge-update call. -/
inductive Op where
  | insert (data : List (String × WebpageData))
  | update (data : List (String × WebpageData))

/-- Run one operation, keeping the durable and in-memory state. -/
def runOp (s : DB × Proc) (op : Op) : DB × Proc :=
  match op with
  | Op.insert data =>
      match BatchProcessor.insert_webpage_data s.1 s.2 data with
      | (db1, proc1, _) => (db1, proc1)
  | Op.update data =>
      match BatchProcessor.update_webpage_data s.1 s.2 data with
      | (db1, proc1, _) => (db1, proc1)

def runOps (s : DB × Proc) (ops : List Op) : DB × Proc := ops.foldl runOp s

def emptyDB : DB := {}

/-- The initial state: empty collections and a fresh processor. -/
def initialState : DB × Proc := (emptyDB, BatchProcessor.init emptyDB)

/-- C5, claim: on engine start the processor reads the progress cursor; when
lastItemIndex > 0 it loads the stored batch lastBatchId into its accumulation
buffer and resumes under the same batch id; otherwise (lastItemIndex = 0,
including the first run where the absent tracking document yields zero
defaults) it opens a fresh empty buffer under batch id lastBatchId + 1. -/
theorem claim5_resume_behavior (db : DB) (lb li : Nat)
    (h : db.tracking = some (lb, li) ∨ (db.tracking = none ∧ lb = 0 ∧ li = 0)) :
    (0 < li →
      (BatchProcessor.init db).batch_contents = (alFind db.webpages lb).getD [] ∧
      (BatchProcessor.init db).batch_id = lb) ∧
    (li = 0 →
      (BatchProcessor.init db).batch_contents = [] ∧
      (BatchProcessor.init db).batch_id = lb + 1) := by
  have hinit : BatchProcessor.init db = BatchProcessor.append_last_batch_info db
      { batch_size := 100, last_updated_batch_id := lb, last_item_index := li,
        last_batch := [], batch_contents := [], batch_id := 0 } := by
    rcases h with h | ⟨h, rfl, rfl⟩ <;> unfold BatchProcessor.init <;> rw [h]
  rw [hinit]
  unfold BatchProcessor.append_last_batch_info BatchProcessor.fetch_last_batch
  by_cases hli : 0 < li
  · rw [if_pos hli]
    constructor
    · intro _
      constructor
      · simp
      · rfl
    · intro h0
      omega
  · rw [if_neg hli]
    constructor
    · intro hc
      exact absurd hc hli
    · intro _
      exact ⟨rfl, rfl⟩

/-- A database whose cursor records two items in batch 3. -/
def resumeDemoDB : DB :=
  { webpages := [(3, [("k", { url := "u" })])], lookup := [("k", 3)],
    tracking := some (3, 2) }

/-- Witness for C5 at concrete inputs: the demo database resumes batch 3 with
its stored contents, and a fresh empty database opens batch 0 + 1 with an
empty buffer. -/
theorem claim5_resume_behavior_witness :
    (BatchProcessor.init resumeDemoDB).batch_contents =
      (alFind resumeDemoDB.webpages 3).getD [] ∧
    (BatchProcessor.init resumeDemoDB).batch_id = 3 ∧
    (BatchProcessor.init emptyDB).batch_contents = [] ∧
    (BatchProcessor.init emptyDB).batch_id = 0 + 1 :=
  ⟨((claim5_resume_behavior resumeDemoDB 3 2 (Or.inl rfl)).1 (by decide)).1,
   ((claim5_resume_behavior resumeDemoDB 3 2 (Or.inl rfl)).1 (by decide)).2,
   ((claim5_resume_behavior emptyDB 0 0 (Or.inr ⟨rfl, rfl, rfl⟩)).2 rfl).1,
   ((claim5_resume_behavior emptyDB 0 0 (Or.inr ⟨rfl, rfl, rfl⟩)).2 rfl).2⟩

/-- C9, claim: the URL-to-EncodedKey transform
(BatchProcessor.get_base64_encoded) is a pure function — the same url always
yields the same EncodedKey — and, being URL-safe Base64, it is injective and
reversible: distinct URLs never collide, and decoding recovers the url. -/
theorem claim9_encoded_key (u v : String) :
    get_base64_encoded u = get_base64_encoded u ∧
    get_base64_decoded (get_base64_encoded u) = u ∧
    (get_base64_encoded u = get_base64_encoded v → u = v) :=
  ⟨rfl, get_base64_decoded_encoded u, get_base64_encoded_injective u v⟩

/-- Witness for C9 at a concrete url. -/
theorem claim9_encoded_key_witness :
    get_base64_encoded "https://a.io" = get_base64_encoded "https://a.io" ∧
    get_base64_decoded (get_base64_encoded "https://a.io") = "https://a.io" ∧
    ("https://a.io" : String) = "https://a.io" :=
  ⟨(claim9_encoded_key "https://a.io" "https://a.io").1,
   (claim9_encoded_key "https://a.io" "https://a.io").2.1,
   (claim9_encoded_key "https://a.io" "https://a.io").2.2 rfl⟩

/-! ## Record extraction from content archives
(CommonCrawlProcessor.extract_warc_data, claim C6) -/

/-- Python's "pat in s" substring test. -/
def strContains (s pat : String) : Bool :=
  s.data.tails.any (fun t => pat.data.isPrefixOf t)

/-- Python's s.endswith(pat). -/
def strEndsWith (s pat : String) : Bool := pat.data.isSuffixOf s.data

/-- One record of a content (WARC) archive as visible to extract_warc_data:
its record type, the WARC-Target-URI and Content-Type headers (the empty
string standing for an absent header, both being falsy in Python), the
decoded html payload and the script lists HTMLParser.get_scripts yields on
it; decodeFault marks a record whose reading or parsing raises, taking the
per-record except branch. -/
structure WarcRecord where
  rec_type : String
  targetURI : String
  contentType : String
  html : String
  embedded_scripts : List String
  external_scripts : List String
  decodeFault : Bool := false
deriving DecidableEq

/-- The record loop of extract_warc_data: stop at the 10-records-per-file
cap, consider only response records with a truthy target URI and a text/html
content type, drop faulting records and records failing the completeness
check (empty markup or empty embedded or external script list), store the
rest under their url. -/
def extractWarcLoop (pd : Contents) (processed_count : Nat) :
    List WarcRecord → Contents
  | [] => pd
  | r :: rest =>
      if 10 ≤ processed_count then pd
      else if r.rec_type = "response" then
        if r.targetURI ≠ "" ∧ r.contentType ≠ "" ∧
            strContains r.contentType "text/html" then
          if r.decodeFault then extractWarcLoop pd processed_count rest
          else if r.html = "" ∨ r.embedded_scripts = [] ∨ r.external_scripts = [] then
            extractWarcLoop pd processed_count rest
          else
            extractWarcLoop (alSet pd r.targetURI
              { url := r.targetURI, html := some r.html,
                embeddedScripts := r.embedded_scripts,
                externalScripts := r.external_scripts }) (processed_count + 1) rest
        else extractWarcLoop pd processed_count rest
      else extractWarcLoop pd processed_count rest

/-- CommonCrawlProcessor.extract_warc_data: empty result on a fetch fault,
otherwise the record loop over the archive stream. -/
def CommonCrawlProcessor.extract_warc_data (fetchFault : Bool)
    (records : List WarcRecord) (page_data : Contents) : Contents :=
  if fetchFault then [] else extractWarcLoop page_data 0 records

theorem extractWarcLoop_only_complete (records : List WarcRecord) (pd : Contents)
    (processed_count : Nat) (url : String) (d : WebpageData)
    (hfind : alFind (extractWarcLoop pd processed_count records) url = some d) :
    alFind pd url = some d ∨
      (d.html ≠ none ∧ d.html ≠ some "" ∧
        (d.embeddedScripts ≠ [] ∨ d.externalScripts ≠ [])) := by
  induction records generalizing pd processed_count with
  | nil => exact Or.inl hfind
  | cons r rest ih =>
      rw [extractWarcLoop] at hfind
      by_cases h10 : 10 ≤ processed_count
      · rw [if_pos h10] at hfind
        exact Or.inl hfind
      · rw [if_neg h10] at hfind
        by_cases hresp : r.rec_type = "response"
        · rw [if_pos hresp] at hfind
          by_cases hhead : r.targetURI ≠ "" ∧ r.contentType ≠ "" ∧
              strContains r.contentType "text/html"
          · rw [if_pos hhead] at hfind
            by_cases hflt : r.decodeFault
            · rw [if_pos hflt] at hfind
              exact ih _ _ hfind
            · rw [if_neg hflt] at hfind
              by_cases hpred : r.html = "" ∨ r.embedded_scripts = [] ∨
                  r.external_scripts = []
              · rw [if_pos hpred] at hfind
                exact ih _ _ hfind
              · rw [if_neg hpred] at hfind
                push_neg at hpred
                rcases ih _ _ hfind with hleft | hright
                · by_cases hurl : r.targetURI = url
                  · subst hurl
                    rw [alFind_alSet_same] at hleft
                    refine Or.inr ?_
                    rw [← (Option.some.injEq _ _).mp hleft]
                    refine ⟨by simp, by simpa using hpred.1, Or.inl (by simpa using hpred.2.1)⟩
                  · rw [alFind_alSet_diff _ _ _ _ hurl] at hleft
                    exact Or.inl hleft
                · exact Or.inr hright
          · rw [if_neg hhead] at hfind
            exact ih _ _ hfind
        · rw [if_neg hresp] at hfind
          exact ih _ _ hfind

/-- C6, claim: for every record of a content archive, the record is kept only
if it yields non-empty markup and at least one embedded-or-external script
reference (the code is stricter still, demanding both lists non-empty); in
particular a record with empty markup and no script references is never
stored, and records failing the predicate or faulting are dropped while the
extraction still returns a result. -/
theorem claim6_content_completeness (fetchFault : Bool) (records : List WarcRecord)
    (page_data : Contents) (url : String) (d : WebpageData)
    (hfind : alFind (CommonCrawlProcessor.extract_warc_data fetchFault records page_data)
      url = some d) :
    alFind page_data url = some d ∨
      (d.html ≠ none ∧ d.html ≠ some "" ∧
        (d.embeddedScripts ≠ [] ∨ d.externalScripts ≠ [])) := by
  unfold CommonCrawlProcessor.extract_warc_data at hfind
  cases fetchFault with
  | true =>
      rw [if_pos rfl] at hfind
      exact absurd hfind (by rw [alFind]; simp)
  | false =>
      rw [if_neg (by simp)] at hfind
      exact extractWarcLoop_only_complete records page_data 0 url d hfind

/-- Witness for C6: a complete record is stored and indeed satisfies the
completeness predicate. -/
theorem claim6_content_completeness_witness :
    alFind ([] : Contents) "u" =
        some { url := "u", html := some "<p>", embeddedScripts := ["s"],
               externalScripts := ["t"] } ∨
      ((some "<p>" : Option String) ≠ none ∧ (some "<p>" : Option String) ≠ some "" ∧
        ((["s"] : List String) ≠ [] ∨ (["t"] : List String) ≠ [])) :=
  claim6_content_completeness false
    [{ rec_type := "response", targetURI := "u", contentType := "text/html",
       html := "<p>", embedded_scripts := ["s"], external_scripts := ["t"] }]
    [] "u" _ (by decide)

/-! ## Archive-source listing (claim C8) -/

/-- One page of the S3 paginator: the object keys under page Contents, or a
fault surfacing while iterating (network/service error). -/
inductive S3Page where
  | ok (keys : List String)
  | fault
deriving DecidableEq

/-- The .warc.gz filter of list_warc_files. -/
def isWarcKey (k : String) : Bool := strEndsWith k ".warc.gz"

/-- The "wat/" in key and key.endswith(".wat.gz") filter of list_wat_files. -/
def isWatKey (k : String) : Bool := strContains k "wat/" && strEndsWith k ".wat.gz"

/-- The accumulation loop of CommonCrawlProcessor.list_warc_files: extend
with each page's .warc.gz keys, break once the 10000-file limit is reached;
none when a fault reaches the except handler. -/
def warcListLoop (acc : List String) : List S3Page → Option (List String)
  | [] => some acc
  | S3Page.fault :: _ => none
  | S3Page.ok keys :: rest =>
      if 10000 ≤ (acc ++ keys.filter isWarcKey).length
      then some (acc ++ keys.filter isWarcKey)
      else warcListLoop (acc ++ keys.filter isWarcKey) rest

/-- CommonCrawlProcessor.list_warc_files: paginated listing truncated to the
10000-file limit; the except handler returns the empty list on any fault. -/
def CommonCrawlProcessor.list_warc_files (pages : List S3Page) : List String :=
  match warcListLoop [] pages with
  | some files => files.take 10000
  | none => []

/-- The inner object loop of CommonCrawlProcessor.list_wat_files: append each
matching key, returning early (flag true) the moment the 10000-file limit is
reached. -/
def watInnerLoop (acc : List String) : List String → List String × Bool
  | [] => (acc, false)
  | k :: rest =>
      if isWatKey k then
        if 10000 ≤ (acc ++ [k]).length then (acc ++ [k], true)
        else watInnerLoop (acc ++ [k]) rest
      else watInnerLoop acc rest

/-- The page loop of CommonCrawlProcessor.list_wat_files: a fault falls
through the except handler to the final return of the accumulated list. -/
def watListLoop (acc : List String) : List S3Page → List String
  | [] => acc
  | S3Page.fault :: _ => acc
  | S3Page.ok keys :: rest =>
      match watInnerLoop acc keys with
      | (acc1, true) => acc1
      | (acc1, false) => watListLoop acc1 rest

/-- CommonCrawlProcessor.list_wat_files. -/
def CommonCrawlProcessor.list_wat_files (pages : List S3Page) : List String :=
  watListLoop [] pages

/-- Number of .warc.gz keys carried by a page prefix. -/
def warcKeyCount : List S3Page → Nat
  | [] => 0
  | S3Page.fault :: rest => warcKeyCount rest
  | S3Page.ok keys :: rest => (keys.filter isWarcKey).length + warcKeyCount rest

/-- The wat files a page prefix yields (accumulation stops at a fault). -/
def watExpected : List S3Page → List String
  | [] => []
  | S3Page.fault :: _ => []
  | S3Page.ok keys :: rest => keys.filter isWatKey ++ watExpected rest

theorem warcListLoop_fault (ps1 : List S3Page) (ps2 : List S3Page) (acc : List String)
    (h : acc.length + warcKeyCount ps1 < 10000) :
    warcListLoop acc (ps1 ++ S3Page.fault :: ps2) = none := by
  induction ps1 generalizing acc with
  | nil => rw [List.nil_append, warcListLoop]
  | cons p rest ih =>
      cases p with
      | fault => rw [List.cons_append, warcListLoop]
      | ok keys =>
          rw [warcKeyCount] at h
          rw [List.cons_append, warcListLoop, if_neg (by simp; omega)]
          exact ih _ (by simp; omega)

theorem watInnerLoop_no_limit (keys : List String) (acc : List String)
    (h : acc.length + (keys.filter isWatKey).length < 10000) :
    watInnerLoop acc keys = (acc ++ keys.filter isWatKey, false) := by
  induction keys generalizing acc with
  | nil => simp [watInnerLoop]
  | cons k rest ih =>
      rw [watInnerLoop]
      by_cases hk : isWatKey k
      · rw [if_pos hk, List.filter_cons_of_pos hk] at *
        rw [if_neg (by simp at h ⊢; omega)]
        rw [ih _ (by simp at h ⊢; omega)]
        simp
      · rw [if_neg hk, List.filter_cons_of_neg (by simpa using hk)] at *
        exact ih _ h

theorem watListLoop_fault (ps1 : List S3Page) (ps2 : List S3Page) (acc : List String)
    (h : acc.length + (watExpected ps1).length < 10000) :
    watListLoop acc (ps1 ++ S3Page.fault :: ps2) = acc ++ watExpected ps1 := by
  induction ps1 generalizing acc with
  | nil => rw [List.nil_append, watListLoop, watExpected, List.append_nil]
  | cons p rest ih =>
      cases p with
      | fault =>
          rw [List.cons_append, watListLoop, watExpected, List.append_nil]
      | ok keys =>
          rw [watExpected] at h
          rw [List.cons_append, watListLoop,
            watInnerLoop_no_limit keys acc (by simp at h ⊢; omega)]
          show watListLoop (acc ++ List.filter isWatKey keys)
              (rest ++ S3Page.fault :: ps2) =
            acc ++ (List.filter isWatKey keys ++ watExpected rest)
          rw [ih _ (by simp at h ⊢; omega), List.append_assoc]

theorem watInnerLoop_bound (keys : List String) (acc : List String)
    (h : acc.length < 10000) :
    (watInnerLoop acc keys).1.length ≤ 10000 ∧
      ((watInnerLoop acc keys).2 = false → (watInnerLoop acc keys).1.length < 10000) := by
  induction keys generalizing acc with
  | nil =>
      rw [watInnerLoop]
      exact ⟨Nat.le_of_lt h, fun _ => h⟩
  | cons k rest ih =>
      rw [watInnerLoop]
      by_cases hk : isWatKey k
      · rw [if_pos hk]
        by_cases hlim : 10000 ≤ (acc ++ [k]).length
        · rw [if_pos hlim]
          constructor
          · simp at hlim ⊢
            omega
          · intro hfls
            exact absurd hfls (by simp)
        · rw [if_neg hlim]
          exact ih _ (by simp at hlim ⊢; omega)
      · rw [if_neg hk]
        exact ih _ h

theorem watListLoop_bound (ps : List S3Page) (acc : List String)
    (h : acc.length < 10000) : (watListLoop acc ps).length ≤ 10000 := by
  induction ps generalizing acc with
  | nil => rw [watListLoop]; omega
  | cons p rest ih =>
      cases p with
      | fault => rw [watListLoop]; omega
      | ok keys =>
          rw [watListLoop]
          have hb := watInnerLoop_bound keys acc h
          rcases hwi : watInnerLoop acc keys with ⟨acc1, flag⟩
          rw [hwi] at hb
          cases flag with
          | true => exact hb.1
          | false => exact ih _ (hb.2 rfl)

/-- C8 (amended), claim: a listing fault makes the content-archive
(list_warc_files) call return the empty sequence, but the metadata-archive
(list_wat_files) call returns the files accumulated before the fault, which
is empty only when the fault precedes any match; both listing calls return at
most 10,000 file identifiers and neither raises past its boundary. -/
theorem claim8_listing_behavior :
    (∀ ps1 ps2 : List S3Page, warcKeyCount ps1 < 10000 →
      CommonCrawlProcessor.list_warc_files (ps1 ++ S3Page.fault :: ps2) = []) ∧
    (∀ ps1 ps2 : List S3Page, (watExpected ps1).length < 10000 →
      CommonCrawlProcessor.list_wat_files (ps1 ++ S3Page.fault :: ps2) =
        watExpected ps1) ∧
    (∀ ps : List S3Page, (CommonCrawlProcessor.list_warc_files ps).length ≤ 10000 ∧
      (CommonCrawlProcessor.list_wat_files ps).length ≤ 10000) := by
  refine ⟨?_, ?_, ?_⟩
  · intro ps1 ps2 h
    unfold CommonCrawlProcessor.list_warc_files
    rw [warcListLoop_fault ps1 ps2 [] (by simpa using h)]
  · intro ps1 ps2 h
    unfold CommonCrawlProcessor.list_wat_files
    rw [watListLoop_fault ps1 ps2 [] (by simpa using h), List.nil_append]
  · intro ps
    constructor
    · unfold CommonCrawlProcessor.list_warc_files
      cases warcListLoop [] ps with
      | none => simp
      | some files => simp
    · exact watListLoop_bound ps [] (by simp)

/-- Witness for C8 at concrete pages: one good page then a fault. -/
theorem claim8_listing_behavior_witness :
    CommonCrawlProcessor.list_warc_files
        [S3Page.ok ["a.warc.gz"], S3Page.fault] = [] ∧
    CommonCrawlProcessor.list_wat_files
        [S3Page.ok ["wat/x.wat.gz"], S3Page.fault] =
      watExpected [S3Page.ok ["wat/x.wat.gz"]] :=
  ⟨claim8_listing_behavior.1 [S3Page.ok ["a.warc.gz"]] [] (by decide),
   claim8_listing_behavior.2.1 [S3Page.ok ["wat/x.wat.gz"]] [] (by decide)⟩

/-- C8 counterexample: the claim says every listing kind returns the empty
sequence on a fault, but a metadata-archive listing that faults after
gathering a file returns that file, not the empty sequence. -/
theorem claim8_counterexample :
    CommonCrawlProcessor.list_wat_files [S3Page.ok ["wat/x.wat.gz"], S3Page.fault] =
      ["wat/x.wat.gz"] ∧ (["wat/x.wat.gz"] : List String) ≠ [] := by
  constructor
  · decide
  · decide

/-! ## BatchDataRetriever (batch_data_retriever.py, claim C10) -/

theorem alFind_filter {α β : Type} [DecidableEq α] (l : List (α × β)) (q : α → Bool)
    (k : α) :
    alFind (l.filter (fun e => q e.1)) k = if q k then alFind l k else none := by
  induction l with
  | nil =>
      cases hq : q k
      · simp [alFind, hq]
      · simp [alFind, hq]
  | cons p rest ih =>
      obtain ⟨k1, v1⟩ := p
      by_cases hq1 : q k1
      · rw [List.filter_cons_of_pos (by simpa using hq1), alFind, alFind]
        by_cases hk : k1 = k
        · subst hk
          rw [if_pos rfl, if_pos rfl, if_pos hq1]
        · rw [if_neg hk, if_neg hk, ih]
      · rw [List.filter_cons_of_neg (by simpa using hq1), alFind, ih]
        by_cases hk : k1 = k
        · subst hk
          rw [if_neg (by simpa using hq1)]
          cases hq : q k1
          · rfl
          · exact absurd hq (by simpa using hq1)
        · rw [if_neg hk]

theorem alFind_foldl_setAll {α β : Type} [DecidableEq α] (ids : List α) (f : α → β)
    (init : List (α × β)) (k : α) :
    alFind (ids.foldl (fun acc b => alSet acc b (f b)) init) k =
      if k ∈ ids then some (f k) else alFind init k := by
  induction ids generalizing init with
  | nil => simp
  | cons i rest ih =>
      rw [List.foldl_cons, ih]
      by_cases hk : k ∈ rest
      · rw [if_pos hk, if_pos (List.mem_cons_of_mem i hk)]
      · rw [if_neg hk]
        by_cases hik : k = i
        · subst hik
          rw [alFind_alSet_same, if_pos (List.mem_cons_self _ _)]
        · rw [alFind_alSet_diff _ _ _ _ (fun hh => hik hh.symm),
            if_neg (by simp [hik, hk])]

/-- BatchDataRetriever.get_batches_data: fetch the batches whose batch_id is
among the requested ids (batch_data_map, embedded as the filtered
collection), then build the result dict mapping every requested id to its
contents or None; the except branch (fault true) returns the empty mapping
instead of raising. -/
def BatchDataRetriever.get_batches_data (fault : Bool) (store : Store)
    (batch_ids : List Nat) : List (Nat × Option Contents) :=
  if fault then []
  else
    batch_ids.foldl (fun acc b =>
      alSet acc b (alFind (store.filter (fun p => batch_ids.contains p.1)) b)) []

/-- C10, claim: for every list of requested batch ids, get_batches_data
returns a mapping whose key set is exactly the requested ids, each id present
in the store mapping to its stored contents and each absent id mapping to
None; on a retrieval fault it returns the empty mapping instead of raising. -/
theorem claim10_get_batches (store : Store) (batch_ids : List Nat) (b : Nat) :
    BatchDataRetriever.get_batches_data true store batch_ids = [] ∧
    alFind (BatchDataRetriever.get_batches_data false store batch_ids) b =
      (if b ∈ batch_ids then some (alFind store b) else none) := by
  constructor
  · rfl
  · unfold BatchDataRetriever.get_batches_data
    rw [if_neg (by simp)]
    rw [alFind_foldl_setAll batch_ids
      (fun b => alFind (store.filter (fun p => batch_ids.contains p.1)) b) [] b]
    by_cases hb : b ∈ batch_ids
    · rw [if_pos hb, if_pos hb]
      have : (fun p : Nat × Contents => batch_ids.contains p.1) =
          (fun p : Nat × Contents => (fun x => batch_ids.contains x) p.1) := rfl
      rw [this, alFind_filter store (fun x => batch_ids.contains x) b,
        if_pos (by simpa using hb)]
    · rw [if_neg hb, if_neg hb, alFind]

/-! ## Commit ordering and cursor advancement (claim C4) -/

/-- Checks that a trace is a sequence of commits, each batch-store write
immediately followed by its lookup bulk-assign. -/
def commitPairs : List Event → Bool
  | [] => true
  | Event.storeWrite _ :: Event.lookupAssign :: rest => commitPairs rest
  | _ => false

theorem commitPairs_pair (b : Nat) (rest : List Event) :
    commitPairs (Event.storeWrite b :: Event.lookupAssign :: rest) = commitPairs rest :=
  rfl

theorem commitPairs_append : ∀ (a b : List Event), commitPairs a = true →
    commitPairs (a ++ b) = commitPairs b
  | [], _, _ => rfl
  | Event.storeWrite _ :: Event.lookupAssign :: rest, b, h => by
      rw [List.cons_append, List.cons_append, commitPairs_pair]
      exact commitPairs_append rest b h
  | Event.storeWrite _ :: Event.storeWrite _ :: _, _, h => Bool.noConfusion h
  | Event.storeWrite _ :: Event.cursorAdvance :: _, _, h => Bool.noConfusion h
  | [Event.storeWrite _], _, h => Bool.noConfusion h
  | Event.lookupAssign :: _, _, h => Bool.noConfusion h
  | Event.cursorAdvance :: _, _, h => Bool.noConfusion h

theorem process_batch_events (db : DB) (proc : Proc) (lu : List (String × Nat))
    (isPartialBatch : Bool) (h : lu ≠ []) :
    (BatchProcessor.process_batch db proc lu isPartialBatch).2.2 =
      [Event.storeWrite proc.batch_id, Event.lookupAssign] := by
  simp only [BatchProcessor.process_batch]
  rw [if_neg h]

theorem process_batch_events_shape (db : DB) (proc : Proc) (lu : List (String × Nat))
    (isPartialBatch : Bool) :
    Event.cursorAdvance ∉ (BatchProcessor.process_batch db proc lu isPartialBatch).2.2 := by
  simp only [BatchProcessor.process_batch]
  by_cases h : lu = []
  · rw [if_pos h]
    simp
  · rw [if_neg h]
    simp

theorem process_batch_full_buffer (db : DB) (proc : Proc) (lu : List (String × Nat)) :
    (BatchProcessor.process_batch db proc lu false).2.1.batch_contents = [] := by
  simp only [BatchProcessor.process_batch, BatchProcessor.append_last_batch_info]
  rw [if_neg (by simp)]

theorem insertLoop_events (data : List (String × WebpageData)) :
    ∀ (db : DB) (proc : Proc) (pending : List (String × Nat)),
      commitPairs (BatchProcessor.insertLoop db proc pending data).2.2.2 = true ∧
      Event.cursorAdvance ∉ (BatchProcessor.insertLoop db proc pending data).2.2.2 := by
  induction data with
  | nil =>
      intro db proc pending
      constructor
      · rfl
      · intro hmem
        exact absurd hmem (by rw [BatchProcessor.insertLoop]; simp)
  | cons kv rest ih =>
      intro db proc pending
      obtain ⟨k, v⟩ := kv
      rw [BatchProcessor.insertLoop]
      by_cases hfull : proc.batch_size ≤
          (alSet proc.batch_contents k v).length
      · rw [if_pos hfull]
        rcases hpb : BatchProcessor.process_batch db
            { proc with batch_contents := alSet proc.batch_contents k v }
            (pending ++ [(k, proc.batch_id)]) false with ⟨db2, proc2, evs⟩
        dsimp only
        rcases hil : BatchProcessor.insertLoop db2 proc2 [] rest with
          ⟨db3, proc3, pend3, evs2⟩
        dsimp only
        have hevs : evs = [Event.storeWrite proc.batch_id, Event.lookupAssign] := by
          have := process_batch_events db
            { proc with batch_contents := alSet proc.batch_contents k v }
            (pending ++ [(k, proc.batch_id)]) false (by simp)
          rw [hpb] at this
          exact this
        have hih := ih db2 proc2 []
        rw [hil] at hih
        constructor
        · rw [hevs, commitPairs_append _ _ (by rfl)]
          exact hih.1
        · rw [hevs]
          intro hmem
          rcases List.mem_append.mp hmem with hmem | hmem
          · simp at hmem
          · exact hih.2 hmem
      · rw [if_neg hfull]
        exact ih db { proc with batch_contents := alSet proc.batch_contents k v }
          (pending ++ [(k, proc.batch_id)])

theorem insertLoop_pending (data : List (String × WebpageData)) :
    ∀ (db : DB) (proc : Proc) (pending : List (String × Nat)),
      (data ≠ [] ∨ (proc.batch_contents ≠ [] → pending ≠ [])) →
      ((BatchProcessor.insertLoop db proc pending data).2.1.batch_contents ≠ [] →
        (BatchProcessor.insertLoop db proc pending data).2.2.1 ≠ []) := by
  induction data with
  | nil =>
      intro db proc pending h
      rw [BatchProcessor.insertLoop]
      rcases h with h | h
      · exact absurd rfl h
      · exact h
  | cons kv rest ih =>
      intro db proc pending h
      obtain ⟨k, v⟩ := kv
      rw [BatchProcessor.insertLoop]
      by_cases hfull : proc.batch_size ≤ (alSet proc.batch_contents k v).length
      · rw [if_pos hfull]
        rcases hpb : BatchProcessor.process_batch db
            { proc with batch_contents := alSet proc.batch_contents k v }
            (pending ++ [(k, proc.batch_id)]) false with ⟨db2, proc2, evs⟩
        dsimp only
        have hproc2 : proc2.batch_contents = [] := by
          have := process_batch_full_buffer db
            { proc with batch_contents := alSet proc.batch_contents k v }
            (pending ++ [(k, proc.batch_id)])
          rw [hpb] at this
          exact this
        rcases hil : BatchProcessor.insertLoop db2 proc2 [] rest with
          ⟨db3, proc3, pend3, evs2⟩
        dsimp only
        have hih := ih db2 proc2 [] (Or.inr (fun hb => absurd hproc2 hb))
        rw [hil] at hih
        exact hih
      · rw [if_neg hfull]
        exact ih db { proc with batch_contents := alSet proc.batch_contents k v }
          (pending ++ [(k, proc.batch_id)]) (Or.inr (fun _ => by simp))

theorem insert_batch_trace (db : DB) (proc : Proc) (data : List (String × WebpageData))
    (hd : data ≠ []) :
    commitPairs (BatchProcessor.insert_batch db proc data).2.2 = true ∧
    Event.cursorAdvance ∉ (BatchProcessor.insert_batch db proc data).2.2 := by
  unfold BatchProcessor.insert_batch
  rcases hil : BatchProcessor.insertLoop db proc [] data with ⟨db1, proc1, pending, evs⟩
  dsimp only
  have hevs := insertLoop_events data db proc []
  rw [hil] at hevs
  have hpend := insertLoop_pending data db proc [] (Or.inl hd)
  rw [hil] at hpend
  by_cases hbuf : proc1.batch_contents ≠ []
  · rw [if_pos hbuf]
    rcases hpb : BatchProcessor.process_batch db1 proc1 pending true with ⟨db2, proc2, evs2⟩
    dsimp only
    have hevs2 : evs2 = [Event.storeWrite proc1.batch_id, Event.lookupAssign] := by
      have := process_batch_events db1 proc1 pending true (hpend hbuf)
      rw [hpb] at this
      exact this
    constructor
    · rw [commitPairs_append _ _ hevs.1, hevs2]
      rfl
    · intro hmem
      rcases List.mem_append.mp hmem with hmem | hmem
      · exact hevs.2 hmem
      · rw [hevs2] at hmem
        simp at hmem
  · rw [if_neg hbuf]
    exact hevs

theorem foldl_alSet_length_mono {α β : Type} [DecidableEq α]
    (l : List (α × β)) (f : α × β → α) (g : α × β → β) :
    ∀ init : List (α × β),
      init.length ≤ (l.foldl (fun acc p => alSet acc (f p) (g p)) init).length := by
  induction l with
  | nil => intro init; exact Nat.le_refl _
  | cons p rest ih =>
      intro init
      rw [List.foldl_cons]
      exact Nat.le_trans (length_le_alSet init (f p) (g p)) (ih _)

theorem map_encoded_ne_nil (l : List (String × WebpageData)) (h : l ≠ []) :
    BatchProcessor.map_encoded_urls_to_data l ≠ [] := by
  cases l with
  | nil => exact absurd rfl h
  | cons p rest =>
      unfold BatchProcessor.map_encoded_urls_to_data
      rw [List.foldl_cons]
      intro hnil
      have := foldl_alSet_length_mono rest
        (fun p => get_base64_encoded p.1) (fun p => p.2.to_dict)
        (alSet [] (get_base64_encoded p.1) p.2.to_dict)
      rw [hnil] at this
      simp [alSet] at this

theorem update_in_batches_no_cursor (data : List (Nat × List (String × WebpageData))) :
    ∀ (s : DB × List Event), Event.cursorAdvance ∉ s.2 →
      Event.cursorAdvance ∉ (data.foldl (fun acc bm =>
        ({ acc.1 with
            webpages := CommonCrawlProcessed.update_batch acc.1.webpages bm.1 bm.2 },
          acc.2 ++ [Event.storeWrite bm.1])) s).2 := by
  induction data with
  | nil => intro s hs; exact hs
  | cons bm rest ih =>
      intro s hs
      rw [List.foldl_cons]
      refine ih _ ?_
      intro hmem
      rcases List.mem_append.mp hmem with hmem | hmem
      · exact hs hmem
      · simp at hmem

/-- C4 (amended), claim: within every commit of an insert run, the batch-store
write immediately precedes the corresponding lookup bulk-assign, and a single
progress-cursor advance follows all of the run's commits; update/merge runs,
however, never advance the progress cursor — their batch-store merges are
followed by neither a bulk-assign nor a cursor advance. -/
theorem claim4_commit_ordering :
    (∀ (db : DB) (proc : Proc) (data : List (String × WebpageData)), data ≠ [] →
      ∃ t, (BatchProcessor.insert_webpage_data db proc data).2.2 =
          t ++ [Event.cursorAdvance] ∧ commitPairs t = true) ∧
    (∀ (db : DB) (proc : Proc) (data : List (String × WebpageData)),
      Event.cursorAdvance ∉ (BatchProcessor.update_webpage_data db proc data).2.2) := by
  constructor
  · intro db proc data hd
    unfold BatchProcessor.insert_webpage_data
    rw [if_neg hd]
    rcases hib : BatchProcessor.insert_batch db proc
        (BatchProcessor.map_encoded_urls_to_data data) with ⟨db1, proc1, evs⟩
    dsimp only
    have := insert_batch_trace db proc (BatchProcessor.map_encoded_urls_to_data data)
      (map_encoded_ne_nil data hd)
    rw [hib] at this
    exact ⟨evs, rfl, this.1⟩
  · intro db proc data
    unfold BatchProcessor.update_webpage_data
    by_cases hd : data = []
    · rw [if_pos hd]
      simp
    · rw [if_neg hd]
      dsimp only
      rcases hcl : BatchProcessor.classifyContents
          (WebpageUrlLookup.bulk_data_lookup db.lookup
            (alKeys (BatchProcessor.map_encoded_urls_to_data data)))
          (BatchProcessor.map_encoded_urls_to_data data) with ⟨new_contents, inserted⟩
      dsimp only
      have hE1 : Event.cursorAdvance ∉
          (if new_contents ≠ [] then BatchProcessor.insert_batch db proc new_contents
           else (db, proc, [])).2.2 := by
        by_cases hnew : new_contents ≠ []
        · rw [if_pos hnew]
          exact (insert_batch_trace db proc new_contents hnew).2
        · rw [if_neg hnew]
          simp
      have hE2 : ∀ db1 : DB, Event.cursorAdvance ∉
          (if inserted ≠ [] then BatchProcessor.update_in_batches db1 inserted
           else (db1, ([] : List Event))).2 := by
        intro db1
        by_cases hupd : inserted ≠ []
        · rw [if_pos hupd]
          unfold BatchProcessor.update_in_batches
          exact update_in_batches_no_cursor inserted (db1, []) (by simp)
        · rw [if_neg hupd]
          simp
      intro hmem
      rcases List.mem_append.mp hmem with hmem | hmem
      · exact hE1 hmem
      · exact hE2 _ hmem

/-- Witness for C4's amended theorem at a concrete insert run. -/
theorem claim4_commit_ordering_witness :
    ([("u", ({ url := "u" } : WebpageData))] ≠ []) ∧
    (∃ t, (BatchProcessor.insert_webpage_data emptyDB (BatchProcessor.init emptyDB)
        [("u", { url := "u" })]).2.2 = t ++ [Event.cursorAdvance] ∧
      commitPairs t = true) :=
  ⟨by decide,
   claim4_commit_ordering.1 emptyDB (BatchProcessor.init emptyDB)
     [("u", { url := "u" })] (by decide)⟩

/-- C4 counterexample: an update/merge run that performs a batch-store commit
emits no progress-cursor advance (and no lookup bulk-assign): merging new
metadata for an already-stored url writes the store, yet the cursor is never
advanced, contradicting the claim that the engine advances the cursor after
every commit, including commits performed during update runs. -/
theorem claim4_counterexample :
    (BatchProcessor.update_webpage_data
        (ingestRun RawFileType.wat emptyDB [("u0", { url := "u0" })])
        (BatchProcessor.init (ingestRun RawFileType.wat emptyDB [("u0", { url := "u0" })]))
        [("u0", { url := "u0", title := some "T" })]).2.2 = [Event.storeWrite 1] ∧
    Event.cursorAdvance ∉ [Event.storeWrite 1] := by
  constructor
  · decide
  · decide

/-! ## Further association-list facts used by the state invariant -/

theorem alFind_isSome_alSet {α β : Type} [DecidableEq α] (l : List (α × β)) (k k2 : α)
    (v : β) : (alFind (alSet l k v) k2).isSome ↔ (alFind l k2).isSome ∨ k2 = k := by
  by_cases h : k = k2
  · subst h
    rw [alFind_alSet_same]
    simp
  · rw [alFind_alSet_diff l k k2 v h]
    constructor
    · exact Or.inl
    · rintro (hh | hh)
      · exact hh
      · exact absurd hh.symm h

theorem mem_alKeys_alSet_of_mem {α β : Type} [DecidableEq α] (l : List (α × β))
    (k k2 : α) (v : β) (h : k2 ∈ alKeys l) : k2 ∈ alKeys (alSet l k v) := by
  rw [alKeys_alSet]
  by_cases hm : k ∈ alKeys l
  · rwa [if_pos hm]
  · rw [if_neg hm]
    exact List.mem_append_left _ h

theorem alFind_some_mem {α β : Type} [DecidableEq α] (l : List (α × β)) (k : α) (v : β)
    (h : alFind l k = some v) : (k, v) ∈ l := by
  induction l with
  | nil => exact absurd h (by rw [alFind]; simp)
  | cons p rest ih =>
      obtain ⟨k1, v1⟩ := p
      rw [alFind] at h
      by_cases h1 : k1 = k
      · rw [if_pos h1] at h
        subst h1
        rw [← (Option.some.injEq _ _).mp h]
        exact List.mem_cons_self _ _
      · rw [if_neg h1] at h
        exact List.mem_cons_of_mem _ (ih h)

theorem alFind_of_mem_nodup {α β : Type} [DecidableEq α] (l : List (α × β)) (k : α)
    (v : β) (hmem : (k, v) ∈ l) (hnd : (alKeys l).Nodup) : alFind l k = some v := by
  induction l with
  | nil => cases hmem
  | cons p rest ih =>
      obtain ⟨k1, v1⟩ := p
      rw [alKeys, List.map_cons, List.nodup_cons] at hnd
      rcases List.mem_cons.mp hmem with hmem | hmem
      · rw [alFind, if_pos (by rw [(Prod.mk.injEq _ _ _ _).mp hmem |>.1])]
        rw [(Prod.mk.injEq _ _ _ _).mp hmem |>.2]
      · rw [alFind]
        by_cases h1 : k1 = k
        · subst h1
          exact absurd (by simpa [alKeys] using List.mem_map_of_mem Prod.fst hmem)
            hnd.1
        · rw [if_neg h1]
          exact ih hmem (by simpa [alKeys] using hnd.2)

theorem mem_alSet_elim {α β : Type} [DecidableEq α] (l : List (α × β)) (k : α) (v : β)
    (p : α × β) (h : p ∈ alSet l k v) : p ∈ l ∨ p = (k, v) := by
  induction l with
  | nil =>
      rw [alSet] at h
      rcases List.mem_singleton.mp h with h
      exact Or.inr h
  | cons q rest ih =>
      obtain ⟨k1, v1⟩ := q
      rw [alSet] at h
      by_cases h1 : k1 = k
      · rw [if_pos h1] at h
        rcases List.mem_cons.mp h with h | h
        · exact Or.inr h
        · exact Or.inl (List.mem_cons_of_mem _ h)
      · rw [if_neg h1] at h
        rcases List.mem_cons.mp h with h | h
        · exact Or.inl (by rw [h]; exact List.mem_cons_self _ _)
        · rcases ih h with h | h
          · exact Or.inl (List.mem_cons_of_mem _ h)
          · exact Or.inr h

theorem foldl_alSet_of_disjoint {α β : Type} [DecidableEq α] (l : List (α × β)) :
    ∀ init : List (α × β), (alKeys l).Nodup →
      (∀ k ∈ alKeys l, k ∉ alKeys init) →
      l.foldl (fun acc p => alSet acc p.1 p.2) init = init ++ l := by
  induction l with
  | nil => intro init _ _; simp
  | cons p rest ih =>
      intro init hnd hdisj
      obtain ⟨k, v⟩ := p
      rw [alKeys, List.map_cons, List.nodup_cons] at hnd
      rw [List.foldl_cons]
      rw [alSet_of_find_none init k v
        (alFind_eq_none_of_not_mem init k (hdisj k (by simp [alKeys])))]
      rw [ih (init ++ [(k, v)]) (by simpa [alKeys] using hnd.2) ?_]
      · simp
      · intro k2 hk2 hk2mem
        rw [alKeys, List.map_append] at hk2mem
        rcases List.mem_append.mp hk2mem with hmm | hmm
        · exact hdisj k2 (by simp [alKeys]; exact Or.inr (by simpa [alKeys] using hk2))
          |>.elim (by simpa [alKeys] using hmm)
        · simp at hmm
          rw [hmm] at hk2
          exact hnd.1 (by simpa [alKeys] using hk2)

theorem bulkAssign_nodup {α β : Type} [DecidableEq α] (ps : List (α × β)) :
    ∀ l : List (α × β), (alKeys l).Nodup →
      (alKeys (ps.foldl (fun acc p => alSet acc p.1 p.2) l)).Nodup := by
  induction ps with
  | nil => intro l h; exact h
  | cons p rest ih =>
      intro l h
      rw [List.foldl_cons]
      exact ih _ (nodup_alKeys_alSet l p.1 p.2 h)

theorem alFind_bulkAssign_isSome_mono {α β : Type} [DecidableEq α] (ps : List (α × β)) :
    ∀ (l : List (α × β)) (k : α), (alFind l k).isSome →
      (alFind (ps.foldl (fun acc p => alSet acc p.1 p.2) l) k).isSome := by
  induction ps with
  | nil => intro l k h; exact h
  | cons p rest ih =>
      intro l k h
      rw [List.foldl_cons]
      exact ih _ k ((alFind_isSome_alSet l p.1 k p.2).mpr (Or.inl h))

theorem alFind_bulkAssign_const {α β : Type} [DecidableEq α] (ps : List (α × β)) (b : β)
    (hps : ∀ p ∈ ps, p.2 = b) : ∀ (l : List (α × β)) (k : α),
    alFind (ps.foldl (fun acc p => alSet acc p.1 p.2) l) k =
      if k ∈ alKeys ps then some b else alFind l k := by
  induction ps with
  | nil => intro l k; simp [alKeys]
  | cons p rest ih =>
      intro l k
      obtain ⟨k1, v1⟩ := p
      have hv1 : v1 = b := hps (k1, v1) (List.mem_cons_self _ _)
      rw [List.foldl_cons, ih (fun q hq => hps q (List.mem_cons_of_mem _ hq))]
      by_cases hk : k ∈ alKeys rest
      · rw [if_pos hk, if_pos (by simp [alKeys] at hk ⊢; exact Or.inr hk)]
      · rw [if_neg hk]
        by_cases hk1 : k = k1
        · subst hk1
          rw [alFind_alSet_same, hv1, if_pos (by simp [alKeys])]
        · rw [alFind_alSet_diff l k1 k v1 (fun hh => hk1 hh.symm),
            if_neg (by simp [alKeys]; exact ⟨fun hh => hk1 hh, by simpa [alKeys] using hk⟩)]

theorem bulkAssign_self {α β : Type} [DecidableEq α] (ps : List (α × β)) :
    ∀ l : List (α × β), (∀ p ∈ ps, alFind l p.1 = some p.2) →
      ps.foldl (fun acc p => alSet acc p.1 p.2) l = l := by
  induction ps with
  | nil => intro l _; rfl
  | cons p rest ih =>
      intro l h
      rw [List.foldl_cons, alSet_of_find_eq l p.1 p.2 (h p (List.mem_cons_self _ _))]
      exact ih l (fun q hq => h q (List.mem_cons_of_mem _ hq))

theorem mergeWebpageData_self (d : WebpageData) : mergeWebpageData d d = d := by
  unfold mergeWebpageData mergeStringField mergeListField
  cases d with
  | mk url html es xs title links headers =>
      simp only
      congr 1
      · cases html <;> rfl
      · split <;> simp_all
      · split <;> simp_all
      · cases title <;> rfl
      · split <;> simp_all
      · split <;> simp_all

theorem length_eq_of_keys_iff {α β γ : Type} [DecidableEq α] (l1 : List (α × β))
    (l2 : List (α × γ)) (h1 : (alKeys l1).Nodup) (h2 : (alKeys l2).Nodup)
    (hiff : ∀ k, k ∈ alKeys l1 ↔ k ∈ alKeys l2) : l1.length = l2.length := by
  have e1 : l1.length = (alKeys l1).length := by simp [alKeys]
  have e2 : l2.length = (alKeys l2).length := by simp [alKeys]
  rw [e1, e2]
  exact Nat.le_antisymm
    (h1.subperm (fun a ha => (hiff a).mp ha)).length_le
    (h2.subperm (fun a ha => (hiff a).mpr ha)).length_le

/-! ## updateBatchContents facts -/

theorem alFind_isSome_updateBatchContents (m : List (String × WebpageData)) :
    ∀ (c : Contents) (k : String),
      (alFind (updateBatchContents c m) k).isSome ↔
        (alFind c k).isSome ∨ k ∈ alKeys m := by
  induction m with
  | nil =>
      intro c k
      simp [updateBatchContents, alKeys]
  | cons kv m ih =>
      intro c k
      obtain ⟨k1, v1⟩ := kv
      unfold updateBatchContents at ih ⊢
      rw [List.foldl_cons]
      cases hf : alFind c k1 with
      | some stored =>
          dsimp only
          rw [ih]
          rw [alFind_isSome_alSet]
          constructor
          · rintro ((h | h) | h)
            · exact Or.inl h
            · exact Or.inr (by simp [alKeys, h])
            · exact Or.inr (by simp [alKeys]; exact Or.inr (by simpa [alKeys] using h))
          · rintro (h | h)
            · exact Or.inl (Or.inl h)
            · simp [alKeys] at h
              rcases h with h | h
              · exact Or.inl (Or.inr h)
              · exact Or.inr (by simpa [alKeys] using h)
      | none =>
          dsimp only
          rw [ih]
          rw [alFind_isSome_alSet]
          constructor
          · rintro ((h | h) | h)
            · exact Or.inl h
            · exact Or.inr (by simp [alKeys, h])
            · exact Or.inr (by simp [alKeys]; exact Or.inr (by simpa [alKeys] using h))
          · rintro (h | h)
            · exact Or.inl (Or.inl h)
            · simp [alKeys] at h
              rcases h with h | h
              · exact Or.inl (Or.inr h)
              · exact Or.inr (by simpa [alKeys] using h)

theorem nodup_updateBatchContents (m : List (String × WebpageData)) :
    ∀ c : Contents, (alKeys c).Nodup → (alKeys (updateBatchContents c m)).Nodup := by
  induction m with
  | nil => intro c h; exact h
  | cons kv m ih =>
      intro c h
      unfold updateBatchContents at ih ⊢
      rw [List.foldl_cons]
      cases hf : alFind c kv.1 with
      | some stored => exact ih _ (nodup_alKeys_alSet c kv.1 _ h)
      | none => exact ih _ (nodup_alKeys_alSet c kv.1 _ h)

theorem updateBatchContents_of_disjoint (m : List (String × WebpageData)) :
    ∀ c : Contents, (alKeys m).Nodup → (∀ k ∈ alKeys m, k ∉ alKeys c) →
      updateBatchContents c m = c ++ m := by
  induction m with
  | nil => intro c _ _; simp [updateBatchContents]
  | cons kv m ih =>
      intro c hnd hdisj
      obtain ⟨k, v⟩ := kv
      rw [alKeys, List.map_cons, List.nodup_cons] at hnd
      unfold updateBatchContents at ih ⊢
      rw [List.foldl_cons]
      have hnone : alFind c k = none :=
        alFind_eq_none_of_not_mem c k (hdisj k (by simp [alKeys]))
      rw [hnone]
      dsimp only
      rw [alSet_of_find_none c k v hnone]
      rw [ih (c ++ [(k, v)]) (by simpa [alKeys] using hnd.2) ?_]
      · simp
      · intro k2 hk2 hk2mem
        rw [alKeys, List.map_append] at hk2mem
        rcases List.mem_append.mp hk2mem with hmm | hmm
        · exact (hdisj k2 (by simp [alKeys]; exact Or.inr (by simpa [alKeys] using hk2)))
            (by simpa [alKeys] using hmm)
        · simp at hmm
          rw [hmm] at hk2
          exact hnd.1 (by simpa [alKeys] using hk2)

theorem updateBatchContents_self (m : List (String × WebpageData)) :
    ∀ c : Contents, (∀ p ∈ m, alFind c p.1 = some p.2) →
      updateBatchContents c m = c := by
  induction m with
  | nil => intro c _; rfl
  | cons kv m ih =>
      intro c h
      obtain ⟨k, v⟩ := kv
      unfold updateBatchContents at ih ⊢
      rw [List.foldl_cons]
      have hf : alFind c k = some v := h (k, v) (List.mem_cons_self _ _)
      rw [hf]
      dsimp only
      rw [mergeWebpageData_self, alSet_of_find_eq c k v hf]
      exact ih c (fun q hq => h q (List.mem_cons_of_mem _ hq))

/-! ## The processor state invariant (claims C2 and C7) -/

/-- The consistency invariant linking the url_lookup_table, the webpages
collection and the open in-memory buffer; it is maintained by every insert
and merge-update operation of the batch processor. -/
structure Inv (db : DB) (proc : Proc) : Prop where
  lookup_nodup : (alKeys db.lookup).Nodup
  store_nodup : (alKeys db.webpages).Nodup
  contents_nodup : ∀ b c, alFind db.webpages b = some c → (alKeys c).Nodup
  lookup_sound : ∀ k b, alFind db.lookup k = some b →
    ∃ c, alFind db.webpages b = some c ∧ (alFind c k).isSome
  batch_covered : ∀ b c, alFind db.webpages b = some c →
    ∀ k, (alFind c k).isSome → (alFind db.lookup k).isSome
  size_bound : ∀ b c, alFind db.webpages b = some c → c.length ≤ 100
  buffer_nodup : (alKeys proc.batch_contents).Nodup
  buffer_small : proc.batch_contents.length < 100
  buffer_covered : ∀ k, (alFind proc.batch_contents k).isSome →
    (alFind db.lookup k).isSome
  open_sub : ∀ c, alFind db.webpages proc.batch_id = some c →
    ∀ k, (alFind c k).isSome → (alFind proc.batch_contents k).isSome
  ids_le : ∀ b c, alFind db.webpages b = some c → b ≤ proc.batch_id
  bsize : proc.batch_size = 100

theorem alFind_alSet_ite {α β : Type} [DecidableEq α] (l : List (α × β)) (k : α) (v : β)
    (k2 : α) : alFind (alSet l k v) k2 = if k2 = k then some v else alFind l k2 := by
  by_cases h : k2 = k
  · subst h
    rw [alFind_alSet_same, if_pos rfl]
  · rw [alFind_alSet_diff l k k2 v (fun hh => h hh.symm), if_neg h]

/-- Merging a map whose keys all live in batch b (the _update_in_batches
case) preserves the invariant: the batch's key set, and hence its size, is
unchanged. -/
theorem update_batch_merge_inv (db : DB) (proc : Proc) (hinv : Inv db proc)
    (b : Nat) (m : List (String × WebpageData)) (c0 : Contents)
    (hc0 : alFind db.webpages b = some c0)
    (hm : ∀ k ∈ alKeys m, (alFind c0 k).isSome) :
    Inv { db with webpages := CommonCrawlProcessed.update_batch db.webpages b m }
      proc := by
  have hub : CommonCrawlProcessed.update_batch db.webpages b m =
      alSet db.webpages b (updateBatchContents c0 m) := by
    unfold CommonCrawlProcessed.update_batch
    rw [hc0]
    rfl
  have hkeys : ∀ k, (alFind (updateBatchContents c0 m) k).isSome ↔
      (alFind c0 k).isSome := by
    intro k
    rw [alFind_isSome_updateBatchContents]
    constructor
    · rintro (h | h)
      · exact h
      · exact hm k h
    · exact Or.inl
  have hnodup0 : (alKeys c0).Nodup := hinv.contents_nodup b c0 hc0
  have hnodup' : (alKeys (updateBatchContents c0 m)).Nodup :=
    nodup_updateBatchContents m c0 hnodup0
  have hlen : (updateBatchContents c0 m).length = c0.length :=
    length_eq_of_keys_iff _ _ hnodup' hnodup0 (fun k => by
      rw [mem_alKeys_iff_isSome, mem_alKeys_iff_isSome, hkeys])
  have hfind : ∀ b2, alFind (alSet db.webpages b (updateBatchContents c0 m)) b2 =
      if b2 = b then some (updateBatchContents c0 m) else alFind db.webpages b2 :=
    alFind_alSet_ite db.webpages b _
  refine ⟨hinv.lookup_nodup, ?_, ?_, ?_, ?_, ?_, hinv.buffer_nodup, hinv.buffer_small,
    hinv.buffer_covered, ?_, ?_, hinv.bsize⟩
  · show (alKeys (CommonCrawlProcessed.update_batch db.webpages b m)).Nodup
    rw [hub]
    exact nodup_alKeys_alSet _ _ _ hinv.store_nodup
  · intro b2 c2 h2
    rw [show ({ db with webpages := CommonCrawlProcessed.update_batch db.webpages b m }
      : DB).webpages = CommonCrawlProcessed.update_batch db.webpages b m from rfl,
      hub, hfind] at h2
    by_cases hb2 : b2 = b
    · rw [if_pos hb2] at h2
      rw [← Option.some.inj h2]
      exact hnodup'
    · rw [if_neg hb2] at h2
      exact hinv.contents_nodup b2 c2 h2
  · intro k b2 hl
    obtain ⟨c2, hc2, hk⟩ := hinv.lookup_sound k b2 hl
    by_cases hb2 : b2 = b
    · subst hb2
      have hc2c0 : c2 = c0 := Option.some.inj (hc2.symm.trans hc0)
      refine ⟨updateBatchContents c0 m, ?_, ?_⟩
      · show alFind (CommonCrawlProcessed.update_batch db.webpages b2 m) b2 = _
        rw [hub, hfind, if_pos rfl]
      · rw [hkeys]
        rw [hc2c0] at hk
        exact hk
    · refine ⟨c2, ?_, hk⟩
      show alFind (CommonCrawlProcessed.update_batch db.webpages b m) b2 = some c2
      rw [hub, hfind, if_neg hb2]
      exact hc2
  · intro b2 c2 h2 k hk
    rw [show ({ db with webpages := CommonCrawlProcessed.update_batch db.webpages b m }
      : DB).webpages = CommonCrawlProcessed.update_batch db.webpages b m from rfl,
      hub, hfind] at h2
    by_cases hb2 : b2 = b
    · rw [if_pos hb2] at h2
      rw [← Option.some.inj h2] at hk
      rw [hkeys] at hk
      exact hinv.batch_covered b c0 hc0 k hk
    · rw [if_neg hb2] at h2
      exact hinv.batch_covered b2 c2 h2 k hk
  · intro b2 c2 h2
    rw [show ({ db with webpages := CommonCrawlProcessed.update_batch db.webpages b m }
      : DB).webpages = CommonCrawlProcessed.update_batch db.webpages b m from rfl,
      hub, hfind] at h2
    by_cases hb2 : b2 = b
    · rw [if_pos hb2] at h2
      rw [← Option.some.inj h2, hlen]
      exact hinv.size_bound b c0 hc0
    · rw [if_neg hb2] at h2
      exact hinv.size_bound b2 c2 h2
  · intro c2 h2 k hk
    rw [show ({ db with webpages := CommonCrawlProcessed.update_batch db.webpages b m }
      : DB).webpages = CommonCrawlProcessed.update_batch db.webpages b m from rfl,
      hub, hfind] at h2
    by_cases hb2 : proc.batch_id = b
    · rw [if_pos hb2] at h2
      rw [← Option.some.inj h2] at hk
      rw [hkeys] at hk
      exact hinv.open_sub c0 (by rw [hb2]; exact hc0) k hk
    · rw [if_neg hb2] at h2
      exact hinv.open_sub c2 h2 k hk
  · intro b2 c2 h2
    rw [show ({ db with webpages := CommonCrawlProcessed.update_batch db.webpages b m }
      : DB).webpages = CommonCrawlProcessed.update_batch db.webpages b m from rfl,
      hub, hfind] at h2
    by_cases hb2 : b2 = b
    · rw [hb2]
      exact hinv.ids_le b c0 hc0
    · rw [if_neg hb2] at h2
      exact hinv.ids_le b2 c2 h2

/-- The _insert_batch loop invariant: the between-operations invariant with
the pending lookup updates accumulated since the last commit, and without a
fixed buffer bound (it is carried separately). -/
structure LoopInv (db : DB) (proc : Proc) (pending : List (String × Nat)) : Prop where
  lookup_nodup : (alKeys db.lookup).Nodup
  store_nodup : (alKeys db.webpages).Nodup
  contents_nodup : ∀ b c, alFind db.webpages b = some c → (alKeys c).Nodup
  lookup_sound : ∀ k b, alFind db.lookup k = some b →
    ∃ c, alFind db.webpages b = some c ∧ (alFind c k).isSome
  batch_covered : ∀ b c, alFind db.webpages b = some c →
    ∀ k, (alFind c k).isSome → (alFind db.lookup k).isSome
  size_bound : ∀ b c, alFind db.webpages b = some c → c.length ≤ 100
  buffer_nodup : (alKeys proc.batch_contents).Nodup
  pending_ok : ∀ p ∈ pending, p.2 = proc.batch_id ∧ p.1 ∈ alKeys proc.batch_contents
  buffer_covered : ∀ k, (alFind proc.batch_contents k).isSome →
    (alFind db.lookup k).isSome ∨ k ∈ alKeys pending
  open_sub : ∀ c, alFind db.webpages proc.batch_id = some c →
    ∀ k, (alFind c k).isSome → (alFind proc.batch_contents k).isSome
  ids_le : ∀ b c, alFind db.webpages b = some c → b ≤ proc.batch_id
  bsize : proc.batch_size = 100

theorem Inv.toLoopInv {db : DB} {proc : Proc} (h : Inv db proc) :
    LoopInv db proc [] :=
  ⟨h.lookup_nodup, h.store_nodup, h.contents_nodup, h.lookup_sound, h.batch_covered,
   h.size_bound, h.buffer_nodup, fun p hp => absurd hp (List.not_mem_nil p),
   fun k hk => Or.inl (h.buffer_covered k hk), h.open_sub, h.ids_le, h.bsize⟩

theorem LoopInv.toInv {db : DB} {proc : Proc} (h : LoopInv db proc [])
    (hsmall : proc.batch_contents.length < 100) : Inv db proc :=
  ⟨h.lookup_nodup, h.store_nodup, h.contents_nodup, h.lookup_sound, h.batch_covered,
   h.size_bound, h.buffer_nodup, hsmall,
   fun k hk => (h.buffer_covered k hk).elim id (fun hm => absurd hm (by simp [alKeys])),
   h.open_sub, h.ids_le, h.bsize⟩

theorem process_batch_db_eq (db : DB) (proc : Proc) (lu : List (String × Nat))
    (ip : Bool) :
    (BatchProcessor.process_batch db proc lu ip).1 =
      { db with
        webpages := CommonCrawlProcessed.update_batch db.webpages proc.batch_id
          proc.batch_contents,
        lookup := if lu = [] then db.lookup
          else WebpageUrlLookup.bulk_update_webpage_lookup db.lookup lu } := by
  simp only [BatchProcessor.process_batch]
  by_cases hlu : lu = []
  · rw [if_pos hlu, if_pos hlu]
  · rw [if_neg hlu, if_neg hlu]

theorem append_last_batch_info_full (db : DB) (proc : Proc)
    (h0 : proc.last_item_index = 0) :
    BatchProcessor.append_last_batch_info db proc =
      { proc with
        batch_contents := []
        batch_id := proc.last_updated_batch_id + 1 } := by
  unfold BatchProcessor.append_last_batch_info
  rw [if_neg (by omega)]

theorem append_last_batch_info_open (db : DB) (proc : Proc)
    (h0 : 0 < proc.last_item_index) (hlb : proc.last_batch ≠ []) :
    BatchProcessor.append_last_batch_info db proc =
      { proc with
        batch_contents := proc.last_batch
        batch_id := proc.last_updated_batch_id } := by
  unfold BatchProcessor.append_last_batch_info
  rw [if_pos h0, if_pos hlb]

theorem process_batch_split (db : DB) (proc : Proc) (lu : List (String × Nat))
    (ip : Bool) :
    BatchProcessor.process_batch db proc lu ip =
      ((BatchProcessor.process_batch db proc lu ip).1,
        BatchProcessor.append_last_batch_info
          (BatchProcessor.process_batch db proc lu ip).1
          { proc with
            last_updated_batch_id := proc.batch_id
            last_item_index := if ip then proc.batch_contents.length else 0
            last_batch := if ip then proc.batch_contents else [] },
        (BatchProcessor.process_batch db proc lu ip).2.2) := rfl

theorem process_batch_proc_full_eq (db : DB) (proc : Proc) (lu : List (String × Nat)) :
    (BatchProcessor.process_batch db proc lu false).2.1 =
      { proc with
        last_updated_batch_id := proc.batch_id
        last_item_index := 0
        last_batch := []
        batch_contents := []
        batch_id := proc.batch_id + 1 } := by
  rw [process_batch_split db proc lu false]
  dsimp only
  rw [append_last_batch_info_full _ _ rfl]
  rfl

theorem process_batch_proc_partial_eq (db : DB) (proc : Proc)
    (lu : List (String × Nat)) (hbuf : proc.batch_contents ≠ []) :
    (BatchProcessor.process_batch db proc lu true).2.1 =
      { proc with
        last_updated_batch_id := proc.batch_id
        last_item_index := proc.batch_contents.length
        last_batch := proc.batch_contents } := by
  rw [process_batch_split db proc lu true]
  dsimp only
  rw [append_last_batch_info_open _ _
    (show (0:Nat) < proc.batch_contents.length from List.length_pos.mpr hbuf)
    (show proc.batch_contents ≠ [] from hbuf)]
  rfl

theorem process_batch_inv (db : DB) (proc : Proc) (pending : List (String × Nat))
    (isPartialBatch : Bool) (h : LoopInv db proc pending)
    (hsize : proc.batch_contents.length ≤ 100)
    (hpart : isPartialBatch = true →
      proc.batch_contents ≠ [] ∧ proc.batch_contents.length < 100) :
    Inv (BatchProcessor.process_batch db proc pending isPartialBatch).1
        (BatchProcessor.process_batch db proc pending isPartialBatch).2.1 := by
  have hub : CommonCrawlProcessed.update_batch db.webpages proc.batch_id
      proc.batch_contents =
      alSet db.webpages proc.batch_id
        (updateBatchContents ((alFind db.webpages proc.batch_id).getD [])
          proc.batch_contents) := rfl
  have hc0sub : ∀ k,
      (alFind ((alFind db.webpages proc.batch_id).getD []) k).isSome →
      (alFind proc.batch_contents k).isSome := by
    intro k hk
    cases hf : alFind db.webpages proc.batch_id with
    | none =>
        rw [hf] at hk
        exact absurd hk (by rw [Option.getD, alFind]; simp)
    | some cx =>
        rw [hf] at hk
        exact h.open_sub cx hf k hk
  have hc0nodup : (alKeys ((alFind db.webpages proc.batch_id).getD [])).Nodup := by
    cases hf : alFind db.webpages proc.batch_id with
    | none => simp [alKeys]
    | some cx => exact h.contents_nodup _ cx hf
  have hckeys : ∀ k,
      (alFind (updateBatchContents ((alFind db.webpages proc.batch_id).getD [])
        proc.batch_contents) k).isSome ↔
      (alFind proc.batch_contents k).isSome := by
    intro k
    rw [alFind_isSome_updateBatchContents]
    constructor
    · rintro (hk | hk)
      · exact hc0sub k hk
      · rwa [mem_alKeys_iff_isSome] at hk
    · intro hk
      exact Or.inr ((mem_alKeys_iff_isSome _ _).mpr hk)
  have hcnodup : (alKeys (updateBatchContents
      ((alFind db.webpages proc.batch_id).getD []) proc.batch_contents)).Nodup :=
    nodup_updateBatchContents _ _ hc0nodup
  have hclen : (updateBatchContents ((alFind db.webpages proc.batch_id).getD [])
      proc.batch_contents).length = proc.batch_contents.length :=
    length_eq_of_keys_iff _ _ hcnodup h.buffer_nodup (fun k => by
      rw [mem_alKeys_iff_isSome, mem_alKeys_iff_isSome, hckeys])
  have hfindS : ∀ b2,
      alFind (CommonCrawlProcessed.update_batch db.webpages proc.batch_id
        proc.batch_contents) b2 =
      if b2 = proc.batch_id then
        some (updateBatchContents ((alFind db.webpages proc.batch_id).getD [])
          proc.batch_contents)
      else alFind db.webpages b2 := by
    intro b2
    rw [hub]
    exact alFind_alSet_ite db.webpages proc.batch_id _ b2
  have hlkp : ∀ k,
      alFind (if pending = [] then db.lookup
        else WebpageUrlLookup.bulk_update_webpage_lookup db.lookup pending) k =
      if k ∈ alKeys pending then some proc.batch_id else alFind db.lookup k := by
    intro k
    by_cases hp : pending = []
    · rw [if_pos hp, hp]
      rw [if_neg (by simp [alKeys])]
    · rw [if_neg hp]
      unfold WebpageUrlLookup.bulk_update_webpage_lookup
      exact alFind_bulkAssign_const pending proc.batch_id
        (fun p hp2 => (h.pending_ok p hp2).1) db.lookup k
  have hLnodup : (alKeys (if pending = [] then db.lookup
      else WebpageUrlLookup.bulk_update_webpage_lookup db.lookup pending)).Nodup := by
    by_cases hp : pending = []
    · rw [if_pos hp]
      exact h.lookup_nodup
    · rw [if_neg hp]
      unfold WebpageUrlLookup.bulk_update_webpage_lookup
      exact bulkAssign_nodup pending db.lookup h.lookup_nodup
  have hLmono : ∀ k, (alFind db.lookup k).isSome →
      (alFind (if pending = [] then db.lookup
        else WebpageUrlLookup.bulk_update_webpage_lookup db.lookup pending) k).isSome := by
    intro k hk
    rw [hlkp]
    by_cases hm : k ∈ alKeys pending
    · rw [if_pos hm]
      rfl
    · rwa [if_neg hm]
  have hLcov : ∀ k, (alFind proc.batch_contents k).isSome →
      (alFind (if pending = [] then db.lookup
        else WebpageUrlLookup.bulk_update_webpage_lookup db.lookup pending) k).isSome := by
    intro k hk
    rcases h.buffer_covered k hk with hk2 | hk2
    · exact hLmono k hk2
    · rw [hlkp, if_pos hk2]
      rfl
  have hsound : ∀ k b2,
      alFind (if pending = [] then db.lookup
        else WebpageUrlLookup.bulk_update_webpage_lookup db.lookup pending) k = some b2 →
      ∃ c, alFind (CommonCrawlProcessed.update_batch db.webpages proc.batch_id
        proc.batch_contents) b2 = some c ∧ (alFind c k).isSome := by
    intro k b2 hl
    rw [hlkp] at hl
    by_cases hm : k ∈ alKeys pending
    · rw [if_pos hm] at hl
      have hb2 : b2 = proc.batch_id := (Option.some.inj hl).symm
      subst hb2
      refine ⟨_, by rw [hfindS, if_pos rfl], ?_⟩
      rw [hckeys]
      rw [alKeys, List.mem_map] at hm
      obtain ⟨p, hp, hpk⟩ := hm
      have hkb : k ∈ alKeys proc.batch_contents := hpk ▸ (h.pending_ok p hp).2
      rwa [mem_alKeys_iff_isSome] at hkb
    · rw [if_neg hm] at hl
      obtain ⟨c2, hc2, hk2⟩ := h.lookup_sound k b2 hl
      by_cases hb2 : b2 = proc.batch_id
      · subst hb2
        refine ⟨_, by rw [hfindS, if_pos rfl], ?_⟩
        rw [hckeys]
        rw [hc2] at hc0sub
        exact hc0sub k hk2
      · exact ⟨c2, by rw [hfindS, if_neg hb2]; exact hc2, hk2⟩
  have hcov : ∀ b2 c2,
      alFind (CommonCrawlProcessed.update_batch db.webpages proc.batch_id
        proc.batch_contents) b2 = some c2 →
      ∀ k, (alFind c2 k).isSome →
      (alFind (if pending = [] then db.lookup
        else WebpageUrlLookup.bulk_update_webpage_lookup db.lookup pending) k).isSome := by
    intro b2 c2 h2 k hk
    rw [hfindS] at h2
    by_cases hb2 : b2 = proc.batch_id
    · rw [if_pos hb2] at h2
      rw [← Option.some.inj h2] at hk
      rw [hckeys] at hk
      exact hLcov k hk
    · rw [if_neg hb2] at h2
      exact hLmono k (h.batch_covered b2 c2 h2 k hk)
  have hnodupS : (alKeys (CommonCrawlProcessed.update_batch db.webpages proc.batch_id
      proc.batch_contents)).Nodup := by
    rw [hub]
    exact nodup_alKeys_alSet _ _ _ h.store_nodup
  have hcontS : ∀ b2 c2, alFind (CommonCrawlProcessed.update_batch db.webpages
      proc.batch_id proc.batch_contents) b2 = some c2 → (alKeys c2).Nodup := by
    intro b2 c2 h2
    rw [hfindS] at h2
    by_cases hb2 : b2 = proc.batch_id
    · rw [if_pos hb2] at h2
      rw [← Option.some.inj h2]
      exact hcnodup
    · rw [if_neg hb2] at h2
      exact h.contents_nodup b2 c2 h2
  have hsizeS : ∀ b2 c2, alFind (CommonCrawlProcessed.update_batch db.webpages
      proc.batch_id proc.batch_contents) b2 = some c2 → c2.length ≤ 100 := by
    intro b2 c2 h2
    rw [hfindS] at h2
    by_cases hb2 : b2 = proc.batch_id
    · rw [if_pos hb2] at h2
      rw [← Option.some.inj h2, hclen]
      exact hsize
    · rw [if_neg hb2] at h2
      exact h.size_bound b2 c2 h2
  have hidsS : ∀ b2 c2, alFind (CommonCrawlProcessed.update_batch db.webpages
      proc.batch_id proc.batch_contents) b2 = some c2 → b2 ≤ proc.batch_id := by
    intro b2 c2 h2
    rw [hfindS] at h2
    by_cases hb2 : b2 = proc.batch_id
    · rw [hb2]
    · rw [if_neg hb2] at h2
      exact h.ids_le b2 c2 h2
  rw [process_batch_db_eq]
  cases isPartialBatch with
  | false =>
      rw [process_batch_proc_full_eq]
      refine ⟨hLnodup, hnodupS, hcontS, hsound, hcov, hsizeS, ?_, ?_, ?_, ?_, ?_, ?_⟩
      · simp [alKeys]
      · exact Nat.succ_pos 99
      · intro k hk
        simp [alFind] at hk
      · intro c2 h2 k hk
        exact absurd (hidsS (proc.batch_id + 1) c2 h2) (by omega)
      · intro b2 c2 h2
        exact Nat.le_succ_of_le (hidsS b2 c2 h2)
      · exact h.bsize
  | true =>
      rw [process_batch_proc_partial_eq db proc pending (hpart rfl).1]
      refine ⟨hLnodup, hnodupS, hcontS, hsound, hcov, hsizeS, h.buffer_nodup,
        (hpart rfl).2, hLcov, ?_, hidsS, h.bsize⟩
      intro c2 h2 k hk
      rw [hfindS, if_pos rfl] at h2
      rw [← Option.some.inj h2] at hk
      rw [hckeys] at hk
      exact hk

theorem LoopInv.toInv_empty {db : DB} {proc : Proc} {pending : List (String × Nat)}
    (h : LoopInv db proc pending) (hbuf : proc.batch_contents = []) : Inv db proc :=
  ⟨h.lookup_nodup, h.store_nodup, h.contents_nodup, h.lookup_sound, h.batch_covered,
   h.size_bound, h.buffer_nodup, by rw [hbuf]; exact Nat.succ_pos 99,
   fun k hk => absurd hk (by rw [hbuf, alFind]; simp),
   h.open_sub, h.ids_le, h.bsize⟩

theorem alSet_ne_nil {α β : Type} [DecidableEq α] (l : List (α × β)) (k : α) (v : β) :
    alSet l k v ≠ [] := by
  cases l with
  | nil => simp [alSet]
  | cons p rest =>
      obtain ⟨k1, v1⟩ := p
      rw [alSet]
      by_cases h : k1 = k
      · rw [if_pos h]; simp
      · rw [if_neg h]; simp

theorem mem_alKeys_alSet_elim {α β : Type} [DecidableEq α] (l : List (α × β))
    (k k2 : α) (v : β) (h : k2 ∈ alKeys (alSet l k v)) : k2 ∈ alKeys l ∨ k2 = k := by
  rw [alKeys_alSet] at h
  by_cases hm : k ∈ alKeys l
  · rw [if_pos hm] at h
    exact Or.inl h
  · rw [if_neg hm] at h
    rcases List.mem_append.mp h with h | h
    · exact Or.inl h
    · exact Or.inr (by simpa using h)

theorem insertLoop_step_loopInv (db : DB) (proc : Proc) (pending : List (String × Nat))
    (k : String) (v : WebpageData) (h : LoopInv db proc pending) :
    LoopInv db { proc with batch_contents := alSet proc.batch_contents k v }
      (pending ++ [(k, proc.batch_id)]) := by
  refine ⟨h.lookup_nodup, h.store_nodup, h.contents_nodup, h.lookup_sound,
    h.batch_covered, h.size_bound, ?_, ?_, ?_, ?_, h.ids_le, h.bsize⟩
  · exact nodup_alKeys_alSet _ _ _ h.buffer_nodup
  · intro p hp
    rcases List.mem_append.mp hp with hp | hp
    · exact ⟨(h.pending_ok p hp).1,
        mem_alKeys_alSet_of_mem _ _ _ _ (h.pending_ok p hp).2⟩
    · rcases List.mem_singleton.mp hp with rfl
      refine ⟨rfl, ?_⟩
      rw [mem_alKeys_iff_isSome, alFind_alSet_same]
      rfl
  · intro k2 hk2
    rcases (alFind_isSome_alSet proc.batch_contents k k2 v).mp hk2 with hk2 | hk2
    · rcases h.buffer_covered k2 hk2 with hh | hh
      · exact Or.inl hh
      · refine Or.inr ?_
        rw [alKeys, List.map_append]
        exact List.mem_append_left _ (by rwa [alKeys] at hh)
    · refine Or.inr ?_
      rw [alKeys, List.map_append]
      refine List.mem_append_right _ ?_
      rw [hk2]
      simp
  · intro c hc k2 hk2
    exact (alFind_isSome_alSet proc.batch_contents k k2 v).mpr
      (Or.inl (h.open_sub c hc k2 hk2))

theorem insertLoop_inv (data : List (String × WebpageData)) :
    ∀ (db : DB) (proc : Proc) (pending : List (String × Nat)),
      LoopInv db proc pending → proc.batch_contents.length < 100 →
      LoopInv (BatchProcessor.insertLoop db proc pending data).1
        (BatchProcessor.insertLoop db proc pending data).2.1
        (BatchProcessor.insertLoop db proc pending data).2.2.1 ∧
      (BatchProcessor.insertLoop db proc pending data).2.1.batch_contents.length < 100 := by
  induction data with
  | nil =>
      intro db proc pending h hs
      rw [BatchProcessor.insertLoop]
      exact ⟨h, hs⟩
  | cons kv rest ih =>
      intro db proc pending h hs
      obtain ⟨k, v⟩ := kv
      rw [BatchProcessor.insertLoop]
      have hstep := insertLoop_step_loopInv db proc pending k v h
      have hlen1 : (alSet proc.batch_contents k v).length ≤ 100 :=
        Nat.le_trans (length_alSet_le proc.batch_contents k v) (by omega)
      by_cases hfull : proc.batch_size ≤ (alSet proc.batch_contents k v).length
      · rw [if_pos hfull]
        rcases hpb : BatchProcessor.process_batch db
            { proc with batch_contents := alSet proc.batch_contents k v }
            (pending ++ [(k, proc.batch_id)]) false with ⟨db2, proc2, evs⟩
        dsimp only
        rcases hil : BatchProcessor.insertLoop db2 proc2 [] rest with
          ⟨db3, proc3, pend3, evs2⟩
        dsimp only
        have hinv2 := process_batch_inv db
          { proc with batch_contents := alSet proc.batch_contents k v }
          (pending ++ [(k, proc.batch_id)]) false hstep hlen1 (by simp)
        rw [hpb] at hinv2
        have := ih db2 proc2 [] hinv2.toLoopInv hinv2.buffer_small
        rw [hil] at this
        exact this
      · rw [if_neg hfull]
        have hlt : (alSet proc.batch_contents k v).length < 100 := by
          rw [h.bsize] at hfull
          omega
        exact ih db { proc with batch_contents := alSet proc.batch_contents k v }
          (pending ++ [(k, proc.batch_id)]) hstep hlt

theorem insert_batch_inv (db : DB) (proc : Proc) (data : List (String × WebpageData))
    (h : Inv db proc) :
    Inv (BatchProcessor.insert_batch db proc data).1
        (BatchProcessor.insert_batch db proc data).2.1 := by
  unfold BatchProcessor.insert_batch
  rcases hil : BatchProcessor.insertLoop db proc [] data with ⟨db1, proc1, pending, evs⟩
  dsimp only
  have hli := insertLoop_inv data db proc [] h.toLoopInv h.buffer_small
  rw [hil] at hli
  by_cases hbuf : proc1.batch_contents ≠ []
  · rw [if_pos hbuf]
    rcases hpb : BatchProcessor.process_batch db1 proc1 pending true with
      ⟨db2, proc2, evs2⟩
    dsimp only
    have hinv2 := process_batch_inv db1 proc1 pending true hli.1
      (Nat.le_of_lt hli.2) (fun _ => ⟨hbuf, hli.2⟩)
    rw [hpb] at hinv2
    exact hinv2
  · rw [if_neg hbuf]
    push_neg at hbuf
    exact hli.1.toInv_empty hbuf

theorem insert_webpage_data_inv (db : DB) (proc : Proc)
    (data : List (String × WebpageData)) (h : Inv db proc) :
    Inv (BatchProcessor.insert_webpage_data db proc data).1
        (BatchProcessor.insert_webpage_data db proc data).2.1 := by
  unfold BatchProcessor.insert_webpage_data
  by_cases hd : data = []
  · rw [if_pos hd]
    exact h
  · rw [if_neg hd]
    rcases hib : BatchProcessor.insert_batch db proc
        (BatchProcessor.map_encoded_urls_to_data data) with ⟨db1, proc1, evs⟩
    dsimp only
    have hinv := insert_batch_inv db proc (BatchProcessor.map_encoded_urls_to_data data) h
    rw [hib] at hinv
    exact ⟨hinv.lookup_nodup, hinv.store_nodup, hinv.contents_nodup, hinv.lookup_sound,
      hinv.batch_covered, hinv.size_bound, hinv.buffer_nodup, hinv.buffer_small,
      hinv.buffer_covered, hinv.open_sub, hinv.ids_le, hinv.bsize⟩

/-! ## Store growth: batches only gain keys -/

/-- A batch store extends another when every batch's key set only grows. -/
def storeLe (s1 s2 : Store) : Prop :=
  ∀ b c, alFind s1 b = some c → ∃ c2, alFind s2 b = some c2 ∧
    ∀ k, (alFind c k).isSome → (alFind c2 k).isSome

theorem storeLe_refl (s : Store) : storeLe s s :=
  fun b c h => ⟨c, h, fun _ hk => hk⟩

theorem storeLe_trans {s1 s2 s3 : Store} (h1 : storeLe s1 s2) (h2 : storeLe s2 s3) :
    storeLe s1 s3 := by
  intro b c h
  obtain ⟨c2, hc2, hk2⟩ := h1 b c h
  obtain ⟨c3, hc3, hk3⟩ := h2 b c2 hc2
  exact ⟨c3, hc3, fun k hk => hk3 k (hk2 k hk)⟩

theorem storeLe_update_batch (s : Store) (b : Nat) (m : List (String × WebpageData)) :
    storeLe s (CommonCrawlProcessed.update_batch s b m) := by
  intro b2 c h2
  have hub : CommonCrawlProcessed.update_batch s b m =
      alSet s b (updateBatchContents ((alFind s b).getD []) m) := rfl
  by_cases hb : b2 = b
  · subst hb
    refine ⟨updateBatchContents ((alFind s b2).getD []) m, ?_, ?_⟩
    · rw [hub]
      exact alFind_alSet_same s b2 _
    · intro k hk
      rw [alFind_isSome_updateBatchContents]
      rw [h2]
      exact Or.inl hk
  · refine ⟨c, ?_, fun _ hk => hk⟩
    rw [hub, alFind_alSet_diff s b b2 _ (fun hh => hb hh.symm)]
    exact h2

theorem process_batch_storeLe (db : DB) (proc : Proc) (lu : List (String × Nat))
    (ip : Bool) :
    storeLe db.webpages (BatchProcessor.process_batch db proc lu ip).1.webpages := by
  rw [process_batch_db_eq]
  exact storeLe_update_batch db.webpages proc.batch_id proc.batch_contents

theorem insertLoop_storeLe (data : List (String × WebpageData)) :
    ∀ (db : DB) (proc : Proc) (pending : List (String × Nat)),
      storeLe db.webpages (BatchProcessor.insertLoop db proc pending data).1.webpages := by
  induction data with
  | nil =>
      intro db proc pending
      rw [BatchProcessor.insertLoop]
      exact storeLe_refl _
  | cons kv rest ih =>
      intro db proc pending
      obtain ⟨k, v⟩ := kv
      rw [BatchProcessor.insertLoop]
      by_cases hfull : proc.batch_size ≤
          (alSet proc.batch_contents k v).length
      · rw [if_pos hfull]
        rcases hpb : BatchProcessor.process_batch db
            { proc with batch_contents := alSet proc.batch_contents k v }
            (pending ++ [(k, proc.batch_id)]) false with ⟨db2, proc2, evs⟩
        dsimp only
        rcases hil : BatchProcessor.insertLoop db2 proc2 [] rest with
          ⟨db3, proc3, pend3, evs2⟩
        dsimp only
        have h1 := process_batch_storeLe db
          { proc with batch_contents := alSet proc.batch_contents k v }
          (pending ++ [(k, proc.batch_id)]) false
        rw [hpb] at h1
        have h2 := ih db2 proc2 []
        rw [hil] at h2
        exact storeLe_trans h1 h2
      · rw [if_neg hfull]
        exact ih db { proc with batch_contents := alSet proc.batch_contents k v }
          (pending ++ [(k, proc.batch_id)])

theorem insert_batch_storeLe (db : DB) (proc : Proc)
    (data : List (String × WebpageData)) :
    storeLe db.webpages (BatchProcessor.insert_batch db proc data).1.webpages := by
  unfold BatchProcessor.insert_batch
  rcases hil : BatchProcessor.insertLoop db proc [] data with ⟨db1, proc1, pending, evs⟩
  dsimp only
  have h1 := insertLoop_storeLe data db proc []
  rw [hil] at h1
  by_cases hbuf : proc1.batch_contents ≠ []
  · rw [if_pos hbuf]
    rcases hpb : BatchProcessor.process_batch db1 proc1 pending true with
      ⟨db2, proc2, evs2⟩
    dsimp only
    have h2 := process_batch_storeLe db1 proc1 pending true
    rw [hpb] at h2
    exact storeLe_trans h1 h2
  · rw [if_neg hbuf]
    exact h1

/-! ## The update/merge path preserves the invariant -/

theorem alFind_nil {α β : Type} [DecidableEq α] (k : α) :
    alFind ([] : List (α × β)) k = none := by
  rw [alFind]

/-- Every group built by the update classifier refers to an existing batch that
already holds all of the group's keys. -/
def GroupsOk (s : Store) (groups : List (Nat × List (String × WebpageData))) : Prop :=
  ∀ g ∈ groups, g.2 ≠ [] ∧ ∀ k ∈ alKeys g.2, ∃ c0, alFind s g.1 = some c0 ∧
    (alFind c0 k).isSome

theorem GroupsOk.mono {s s2 : Store} (hle : storeLe s s2)
    {groups : List (Nat × List (String × WebpageData))}
    (h : GroupsOk s groups) : GroupsOk s2 groups := by
  intro g hg
  refine ⟨(h g hg).1, ?_⟩
  intro k hk
  obtain ⟨c0, hc0, hkc⟩ := (h g hg).2 k hk
  obtain ⟨c2, hc2, hmono⟩ := hle g.1 c0 hc0
  exact ⟨c2, hc2, hmono k hkc⟩

theorem GroupsOk.head_elim (s : Store)
    (groups : List (Nat × List (String × WebpageData))) (h : GroupsOk s groups)
    (g : Nat × List (String × WebpageData)) (hg : g ∈ groups) :
    ∃ c0, alFind s g.1 = some c0 ∧ ∀ k ∈ alKeys g.2, (alFind c0 k).isSome := by
  obtain ⟨hne, hk⟩ := h g hg
  obtain ⟨k0, hk0⟩ := List.exists_mem_of_ne_nil (alKeys g.2)
    (by rw [alKeys]; simpa using hne)
  obtain ⟨c0, hc0, hpc⟩ := hk k0 hk0
  refine ⟨c0, hc0, ?_⟩
  intro k hkm
  obtain ⟨c1, hc1, hkc⟩ := hk k hkm
  rw [hc0] at hc1
  rw [Option.some.inj hc1]
  exact hkc

theorem addToGroups_ok (s : Store)
    (groups : List (Nat × List (String × WebpageData))) (b : Nat) (k : String)
    (v : WebpageData) (hg : GroupsOk s groups)
    (hk : ∃ c0, alFind s b = some c0 ∧ (alFind c0 k).isSome) :
    GroupsOk s (addToGroups groups b k v) := by
  unfold addToGroups
  cases hf : alFind groups b with
  | some m =>
      dsimp only
      intro g hgmem
      rcases mem_alSet_elim groups b (alSet m k v) g hgmem with hgmem | rfl
      · exact hg g hgmem
      · refine ⟨alSet_ne_nil m k v, ?_⟩
        intro k2 hk2
        rcases mem_alKeys_alSet_elim m k k2 v hk2 with hk2 | rfl
        · exact (hg (b, m) (alFind_some_mem groups b m hf)).2 k2 hk2
        · exact hk
  | none =>
      dsimp only
      intro g hgmem
      rcases List.mem_append.mp hgmem with hgmem | hgmem
      · exact hg g hgmem
      · rcases List.mem_singleton.mp hgmem with rfl
        refine ⟨by simp, ?_⟩
        intro k2 hk2
        have hk2k : k2 = k := by
          rw [alKeys] at hk2
          simpa using hk2
        rw [hk2k]
        exact hk

theorem classifyContents_fold_ok (s : Store) (existing : List (String × Nat))
    (hex : ∀ k b, alFind existing k = some b →
      ∃ c0, alFind s b = some c0 ∧ (alFind c0 k).isSome)
    (safe : List (String × WebpageData)) :
    ∀ acc : List (String × WebpageData) × List (Nat × List (String × WebpageData)),
      GroupsOk s acc.2 →
      GroupsOk s ((safe.foldl (fun acc kv =>
        match alFind existing kv.1 with
        | some b => (acc.1, addToGroups acc.2 b kv.1 kv.2)
        | none => (alSet acc.1 kv.1 kv.2, acc.2)) acc)).2 := by
  induction safe with
  | nil =>
      intro acc h
      exact h
  | cons kv rest ih =>
      intro acc h
      rw [List.foldl_cons]
      cases hf : alFind existing kv.1 with
      | some b =>
          dsimp only
          exact ih (acc.1, addToGroups acc.2 b kv.1 kv.2)
            (addToGroups_ok s acc.2 b kv.1 kv.2 h (hex kv.1 b hf))
      | none =>
          dsimp only
          exact ih (alSet acc.1 kv.1 kv.2, acc.2) h

theorem classifyContents_groups_ok (s : Store) (existing : List (String × Nat))
    (safe : List (String × WebpageData))
    (hex : ∀ k b, alFind existing k = some b →
      ∃ c0, alFind s b = some c0 ∧ (alFind c0 k).isSome) :
    GroupsOk s (BatchProcessor.classifyContents existing safe).2 := by
  unfold BatchProcessor.classifyContents
  exact classifyContents_fold_ok s existing hex safe ([], [])
    (fun g hg => absurd hg (List.not_mem_nil g))

theorem bulk_data_lookup_sound (db : DB) (proc : Proc) (h : Inv db proc)
    (urls : List String) (k : String) (b : Nat)
    (hf : alFind (WebpageUrlLookup.bulk_data_lookup db.lookup urls) k = some b) :
    ∃ c0, alFind db.webpages b = some c0 ∧ (alFind c0 k).isSome := by
  unfold WebpageUrlLookup.bulk_data_lookup at hf
  rw [alFind_filter db.lookup (fun a => urls.contains a) k] at hf
  by_cases hc : urls.contains k
  · rw [if_pos hc] at hf
    exact h.lookup_sound k b hf
  · rw [if_neg hc] at hf
    exact Option.noConfusion hf

theorem update_in_batches_fold_inv (proc : Proc)
    (groups : List (Nat × List (String × WebpageData))) :
    ∀ acc : DB × List Event, Inv acc.1 proc → GroupsOk acc.1.webpages groups →
      Inv ((groups.foldl (fun acc bm =>
        ({ acc.1 with
            webpages := CommonCrawlProcessed.update_batch acc.1.webpages bm.1 bm.2 },
          acc.2 ++ [Event.storeWrite bm.1])) acc)).1 proc := by
  induction groups with
  | nil =>
      intro acc h _
      exact h
  | cons g rest ih =>
      intro acc h hgo
      rw [List.foldl_cons]
      dsimp only
      obtain ⟨c0, hc0, hkc⟩ := GroupsOk.head_elim acc.1.webpages (g :: rest) hgo g
        (List.mem_cons_self g rest)
      have hinv1 := update_batch_merge_inv acc.1 proc h g.1 g.2 c0 hc0 hkc
      refine ih ({ acc.1 with
          webpages := CommonCrawlProcessed.update_batch acc.1.webpages g.1 g.2 },
        acc.2 ++ [Event.storeWrite g.1]) hinv1 ?_
      have hle := storeLe_update_batch acc.1.webpages g.1 g.2
      exact GroupsOk.mono hle (fun g2 hg2 => hgo g2 (List.mem_cons_of_mem g hg2))

theorem update_in_batches_inv (db : DB) (proc : Proc)
    (groups : List (Nat × List (String × WebpageData)))
    (h : Inv db proc) (hgo : GroupsOk db.webpages groups) :
    Inv (BatchProcessor.update_in_batches db groups).1 proc := by
  unfold BatchProcessor.update_in_batches
  exact update_in_batches_fold_inv proc groups (db, []) h hgo

theorem update_webpage_data_inv (db : DB) (proc : Proc)
    (data : List (String × WebpageData)) (h : Inv db proc) :
    Inv (BatchProcessor.update_webpage_data db proc data).1
        (BatchProcessor.update_webpage_data db proc data).2.1 := by
  unfold BatchProcessor.update_webpage_data
  by_cases hd : data = []
  · rw [if_pos hd]
    exact h
  · rw [if_neg hd]
    dsimp only
    rcases hcl : BatchProcessor.classifyContents
        (WebpageUrlLookup.bulk_data_lookup db.lookup
          (alKeys (BatchProcessor.map_encoded_urls_to_data data)))
        (BatchProcessor.map_encoded_urls_to_data data) with ⟨new_contents, inserted⟩
    dsimp only
    have hgo : GroupsOk db.webpages inserted := by
      have := classifyContents_groups_ok db.webpages
        (WebpageUrlLookup.bulk_data_lookup db.lookup
          (alKeys (BatchProcessor.map_encoded_urls_to_data data)))
        (BatchProcessor.map_encoded_urls_to_data data)
        (fun k b hf => bulk_data_lookup_sound db proc h _ k b hf)
      rw [hcl] at this
      exact this
    have hE1inv : Inv (if new_contents ≠ [] then
          BatchProcessor.insert_batch db proc new_contents
        else (db, proc, [])).1
        (if new_contents ≠ [] then BatchProcessor.insert_batch db proc new_contents
        else (db, proc, [])).2.1 := by
      by_cases hnew : new_contents ≠ []
      · rw [if_pos hnew]
        exact insert_batch_inv db proc new_contents h
      · rw [if_neg hnew]
        exact h
    have hE1le : storeLe db.webpages
        (if new_contents ≠ [] then BatchProcessor.insert_batch db proc new_contents
        else (db, proc, [])).1.webpages := by
      by_cases hnew : new_contents ≠ []
      · rw [if_pos hnew]
        exact insert_batch_storeLe db proc new_contents
      · rw [if_neg hnew]
        exact storeLe_refl _
    by_cases hupd : inserted ≠ []
    · rw [if_pos hupd]
      exact update_in_batches_inv _ _ inserted hE1inv (GroupsOk.mono hE1le hgo)
    · rw [if_neg hupd]
      exact hE1inv

/-! ## The invariant along any operation sequence -/

theorem runOp_inv (s : DB × Proc) (op : Op) (h : Inv s.1 s.2) :
    Inv (runOp s op).1 (runOp s op).2 := by
  cases op with
  | insert data => exact insert_webpage_data_inv s.1 s.2 data h
  | update data => exact update_webpage_data_inv s.1 s.2 data h

theorem runOps_inv (ops : List Op) : ∀ s : DB × Proc, Inv s.1 s.2 →
    Inv (runOps s ops).1 (runOps s ops).2 := by
  induction ops with
  | nil =>
      intro s h
      exact h
  | cons op rest ih =>
      intro s h
      have h1 := runOp_inv s op h
      have h2 := ih (runOp s op) h1
      exact h2

theorem initialState_inv : Inv initialState.1 initialState.2 := by
  refine ⟨?_, ?_, ?_, ?_, ?_, ?_, ?_, ?_, ?_, ?_, ?_, ?_⟩
  · exact List.nodup_nil
  · exact List.nodup_nil
  · intro b c hf
    rw [show initialState.1.webpages = ([] : Store) from rfl, alFind_nil] at hf
    exact Option.noConfusion hf
  · intro k b hf
    rw [show initialState.1.lookup = ([] : List (String × Nat)) from rfl,
      alFind_nil] at hf
    exact Option.noConfusion hf
  · intro b c hf
    rw [show initialState.1.webpages = ([] : Store) from rfl, alFind_nil] at hf
    exact Option.noConfusion hf
  · intro b c hf
    rw [show initialState.1.webpages = ([] : Store) from rfl, alFind_nil] at hf
    exact Option.noConfusion hf
  · exact List.nodup_nil
  · exact Nat.succ_pos 99
  · intro k hk
    rw [show initialState.2.batch_contents = ([] : Contents) from rfl,
      alFind_nil] at hk
    exact absurd hk (by simp)
  · intro c hf
    rw [show initialState.1.webpages = ([] : Store) from rfl, alFind_nil] at hf
    exact Option.noConfusion hf
  · intro b c hf
    rw [show initialState.1.webpages = ([] : Store) from rfl, alFind_nil] at hf
    exact Option.noConfusion hf
  · rfl

/-- C7: batch-size bound.  After any sequence of insert and merge-update
operations from the initial state, every stored batch — the sealed ones and
the currently open one alike — holds at most batch_size = 100 records. -/
theorem claim7_batch_size_bound (ops : List Op) (b : Nat) (c : Contents)
    (hc : alFind (runOps initialState ops).1.webpages b = some c) :
    c.length ≤ 100 :=
  (runOps_inv ops initialState initialState_inv).size_bound b c hc

/-- Witness for C7 at a one-insert run: batch 1 holds one record. -/
theorem claim7_batch_size_bound_witness :
    alFind (runOps initialState [Op.insert [("u", { url := "u" })]]).1.webpages 1 =
      some [("dQ==", { url := "u" })] ∧
    ([("dQ==", ({ url := "u" } : WebpageData))] : Contents).length ≤ 100 :=
  ⟨by decide, claim7_batch_size_bound [Op.insert [("u", { url := "u" })]] 1
    [("dQ==", { url := "u" })] (by decide)⟩

/-- C2 (amended): lookup-index consistency.  After any operation sequence the
lookup table holds at most one entry per encoded url, every key stored in any
batch has a lookup entry, and every lookup entry points to a batch whose
contents contain that key.  The entry need not point to every batch holding
the key: re-inserting an existing url duplicates it into a fresh batch and
repoints the lookup there (see the counterexample). -/
theorem claim2_lookup_consistency (ops : List Op) :
    ((alKeys (runOps initialState ops).1.lookup).Nodup) ∧
    (∀ b c, alFind (runOps initialState ops).1.webpages b = some c →
      ∀ k, (alFind c k).isSome →
        (alFind (runOps initialState ops).1.lookup k).isSome) ∧
    (∀ k b, alFind (runOps initialState ops).1.lookup k = some b →
      ∃ c, alFind (runOps initialState ops).1.webpages b = some c ∧
        (alFind c k).isSome) := by
  have h := runOps_inv ops initialState initialState_inv
  exact ⟨h.lookup_nodup, h.batch_covered, h.lookup_sound⟩

/-- Witness for C2's amended theorem at a one-insert run: the single lookup
entry names batch 1, which indeed contains the key. -/
theorem claim2_lookup_consistency_witness :
    (alFind (runOps initialState [Op.insert [("u", { url := "u" })]]).1.lookup
        "dQ==" = some 1) ∧
    ∃ c, alFind (runOps initialState
        [Op.insert [("u", { url := "u" })]]).1.webpages 1 = some c ∧
      (alFind c "dQ==").isSome :=
  ⟨by decide,
   (claim2_lookup_consistency [Op.insert [("u", { url := "u" })]]).2.2 "dQ==" 1
     (by decide)⟩

/-- The i-th test page: raw url "u" followed by the decimal digits of i. -/
def testPage (i : Nat) : String × WebpageData :=
  ("u" ++ Nat.repr i, { url := "u" ++ Nat.repr i })

/-- One hundred distinct test pages, filling exactly one batch. -/
def testPages100 : List (String × WebpageData) := (List.range 100).map testPage

/-- The database after inserting a full batch of 100 pages and then
re-inserting the first page through the same processor instance. -/
def c2DB : DB :=
  (runOps initialState [Op.insert testPages100, Op.insert [testPage 0]]).1

set_option maxRecDepth 100000 in
set_option maxHeartbeats 2000000 in
/-- C2 counterexample: after batch 1 is sealed by a full commit, re-inserting
the already-stored url "u0" stores a second copy of the key under the fresh
batch 2 and repoints its lookup entry there, while batch 1 still contains the
key.  The key is thus present in two batches and its lookup entry names batch
2, so the lookup entry does not equal the id of (every) batch containing the
key, refuting the claimed invariant. -/
theorem claim2_counterexample :
    (alFind ((alFind c2DB.webpages 1).getD []) (get_base64_encoded "u0")).isSome
      = true ∧
    (alFind ((alFind c2DB.webpages 2).getD []) (get_base64_encoded "u0")).isSome
      = true ∧
    alFind c2DB.lookup (get_base64_encoded "u0") = some 2 := by
  decide

/-! ## Re-ingestion of a sub-batch-size dataset -/

/-- The encoded page list produced by map_encoded_urls_to_data when the raw
urls are duplicate-free. -/
def encPages (data : List (String × WebpageData)) : List (String × WebpageData) :=
  data.map (fun p => (get_base64_encoded p.1, p.2.to_dict))

/-- The lookup table after a first ingestion of the data into batch 1. -/
def encLookup (data : List (String × WebpageData)) : List (String × Nat) :=
  (encPages data).map (fun p => (p.1, 1))

/-- The database produced by a first WAT ingestion run of a sub-batch-size
page list into the empty database. -/
def runOneDB (data : List (String × WebpageData)) : DB :=
  { webpages := [(1, encPages data)], lookup := encLookup data,
    tracking := some (1, (encPages data).length) }

theorem map_encoded_fold_eq (data : List (String × WebpageData)) :
    BatchProcessor.map_encoded_urls_to_data data =
      (encPages data).foldl (fun acc q => alSet acc q.1 q.2) [] := by
  unfold BatchProcessor.map_encoded_urls_to_data encPages
  rw [List.foldl_map]

theorem alKeys_encPages (data : List (String × WebpageData)) :
    alKeys (encPages data) = (data.map Prod.fst).map get_base64_encoded := by
  unfold encPages alKeys
  rw [List.map_map, List.map_map]
  rfl

theorem encKeys_nodup (data : List (String × WebpageData))
    (hnd : (data.map Prod.fst).Nodup) : (alKeys (encPages data)).Nodup := by
  rw [alKeys_encPages]
  exact List.Nodup.map (fun a b h => get_base64_encoded_injective a b h) hnd

theorem encPages_length (data : List (String × WebpageData)) :
    (encPages data).length = data.length := by
  unfold encPages
  rw [List.length_map]

theorem encPages_ne_nil (data : List (String × WebpageData)) (h : data ≠ []) :
    encPages data ≠ [] := by
  unfold encPages
  simpa using h

theorem map_encoded_eq_of_nodup (data : List (String × WebpageData))
    (hnd : (data.map Prod.fst).Nodup) :
    BatchProcessor.map_encoded_urls_to_data data = encPages data := by
  rw [map_encoded_fold_eq]
  rw [foldl_alSet_of_disjoint (encPages data) [] (encKeys_nodup data hnd)
    (fun k _ => by rw [alKeys]; simp)]
  rw [List.nil_append]

theorem storeBatchLoop_no_flush (ft : RawFileType)
    (rest : List (String × WebpageData)) :
    ∀ (db : DB) (proc : Proc) (buf : List (String × WebpageData)),
      proc.batch_size = 100 → buf.length + rest.length ≤ 99 →
      storeBatchLoop ft db proc buf rest =
        (db, proc, rest.foldl (fun b p => alSet b p.1 p.2) buf, []) := by
  induction rest with
  | nil =>
      intro db proc buf _ _
      rw [storeBatchLoop]
      rfl
  | cons p rest2 ih =>
      intro db proc buf hbs hlen
      obtain ⟨u, d⟩ := p
      have h1 := length_alSet_le buf u d
      have hlen2 : buf.length + (rest2.length + 1) ≤ 99 := by
        simpa using hlen
      rw [storeBatchLoop.eq_def]
      dsimp only
      rw [if_neg (show ¬ (proc.batch_size ≤ (alSet buf u d).length) by
        rw [hbs]; omega)]
      rw [ih db proc (alSet buf u d) hbs (by omega)]
      rfl

theorem insertLoop_no_commit (l : List (String × WebpageData)) :
    ∀ (db : DB) (proc : Proc) (pending : List (String × Nat)),
      proc.batch_size = 100 →
      proc.batch_contents.length + l.length ≤ 99 →
      BatchProcessor.insertLoop db proc pending l =
        (db,
          { proc with
              batch_contents := l.foldl (fun b p => alSet b p.1 p.2) proc.batch_contents },
          pending ++ l.map (fun p => (p.1, proc.batch_id)), []) := by
  induction l with
  | nil =>
      intro db proc pending _ _
      rw [BatchProcessor.insertLoop]
      simp only [List.foldl_nil, List.map_nil, List.append_nil]
  | cons p l2 ih =>
      intro db proc pending hbs hlen
      obtain ⟨k, v⟩ := p
      have h1 := length_alSet_le proc.batch_contents k v
      have hlen2 : proc.batch_contents.length + (l2.length + 1) ≤ 99 := by
        simpa using hlen
      rw [BatchProcessor.insertLoop]
      rw [if_neg (show ¬ (proc.batch_size ≤ (alSet proc.batch_contents k v).length) by
        rw [hbs]; omega)]
      rw [ih db { proc with batch_contents := alSet proc.batch_contents k v }
        (pending ++ [(k, proc.batch_id)]) hbs
        (show (alSet proc.batch_contents k v).length + l2.length ≤ 99 by omega)]
      simp

theorem insertLoop_no_commit_same (l : List (String × WebpageData)) :
    ∀ (db : DB) (proc : Proc) (pending : List (String × Nat)),
      proc.batch_size = 100 →
      proc.batch_contents.length ≤ 99 →
      (∀ p ∈ l, alFind proc.batch_contents p.1 = some p.2) →
      BatchProcessor.insertLoop db proc pending l =
        (db, proc, pending ++ l.map (fun p => (p.1, proc.batch_id)), []) := by
  induction l with
  | nil =>
      intro db proc pending _ _ _
      rw [BatchProcessor.insertLoop]
      simp
  | cons p l2 ih =>
      intro db proc pending hbs hlen hmem
      obtain ⟨k, v⟩ := p
      have hset : alSet proc.batch_contents k v = proc.batch_contents :=
        alSet_of_find_eq _ _ _ (hmem (k, v) (List.mem_cons_self _ _))
      rw [BatchProcessor.insertLoop]
      rw [if_neg (show ¬ (proc.batch_size ≤ (alSet proc.batch_contents k v).length) by
        rw [hset, hbs]; omega)]
      have hproc : { proc with batch_contents := alSet proc.batch_contents k v }
          = proc := by
        rw [hset]
      rw [hproc]
      rw [ih db proc (pending ++ [(k, proc.batch_id)]) hbs hlen
        (fun q hq => hmem q (List.mem_cons_of_mem _ hq))]
      simp

theorem insert_batch_fresh (el : List (String × WebpageData))
    (hnd : (alKeys el).Nodup) (hne : el ≠ []) (hlen : el.length ≤ 99) :
    BatchProcessor.insert_batch emptyDB ⟨100, 0, 0, [], [], 1⟩ el =
      ({ webpages := [(1, el)], lookup := el.map (fun p => (p.1, 1)),
         tracking := none },
       ⟨100, 1, el.length, el, el, 1⟩,
       [Event.storeWrite 1, Event.lookupAssign]) := by
  have hfold : el.foldl (fun b p => alSet b p.1 p.2) ([] : Contents) = el := by
    have := foldl_alSet_of_disjoint el ([] : Contents) hnd
      (fun k _ => by rw [alKeys]; simp)
    simpa using this
  have hpend : el.map (fun p => (p.1, (1 : Nat))) ≠ [] := by simpa using hne
  have hub : CommonCrawlProcessed.update_batch emptyDB.webpages 1 el = [(1, el)] := by
    unfold CommonCrawlProcessed.update_batch
    rw [show emptyDB.webpages = ([] : Store) from rfl, alFind_nil]
    show alSet [] 1 (updateBatchContents [] el) = [(1, el)]
    have h2 : updateBatchContents [] el = el := by
      have := updateBatchContents_of_disjoint el [] hnd
        (fun k _ => by rw [alKeys]; simp)
      simpa using this
    rw [h2]
    rfl
  have hlknd : (alKeys (el.map (fun p => (p.1, (1 : Nat))))).Nodup := by
    rw [alKeys, List.map_map]
    exact hnd
  have hlk : WebpageUrlLookup.bulk_update_webpage_lookup emptyDB.lookup
      (el.map (fun p => (p.1, 1))) = el.map (fun p => (p.1, 1)) := by
    unfold WebpageUrlLookup.bulk_update_webpage_lookup
    rw [show emptyDB.lookup = ([] : List (String × Nat)) from rfl]
    have := foldl_alSet_of_disjoint (el.map (fun p => (p.1, (1 : Nat)))) [] hlknd
      (fun k _ => by rw [alKeys]; simp)
    simpa using this
  unfold BatchProcessor.insert_batch
  rw [insertLoop_no_commit el emptyDB ⟨100, 0, 0, [], [], 1⟩ [] rfl
    (by simpa using hlen)]
  dsimp only
  rw [hfold]
  rw [if_pos hne]
  simp only [List.nil_append]
  refine Prod.ext ?_ (Prod.ext ?_ ?_)
  · dsimp only
    rw [process_batch_db_eq]
    dsimp only
    rw [if_neg hpend, hub, hlk]
    rfl
  · dsimp only
    rw [process_batch_proc_partial_eq _ _ _
      (show (Proc.mk 100 0 0 [] el 1).batch_contents ≠ [] from hne)]
  · dsimp only
    rw [process_batch_events _ _ _ _ hpend]

theorem insert_webpage_data_fresh (data : List (String × WebpageData))
    (hnd : (data.map Prod.fst).Nodup) (hne : data ≠ []) (hlen : data.length ≤ 99) :
    BatchProcessor.insert_webpage_data emptyDB ⟨100, 0, 0, [], [], 1⟩ data =
      (runOneDB data,
       ⟨100, 1, (encPages data).length, encPages data, encPages data, 1⟩,
       [Event.storeWrite 1, Event.lookupAssign, Event.cursorAdvance]) := by
  unfold BatchProcessor.insert_webpage_data
  rw [if_neg hne]
  rw [map_encoded_eq_of_nodup data hnd]
  rw [insert_batch_fresh (encPages data) (encKeys_nodup data hnd)
    (encPages_ne_nil data hne) (by rw [encPages_length]; exact hlen)]
  unfold BatchProcessor.update_index_tracking runOneDB encLookup
  rfl

theorem ingest_first_run (data : List (String × WebpageData))
    (hnd : (data.map Prod.fst).Nodup) (hne : data ≠ []) (hlen : data.length ≤ 99) :
    ingestRun RawFileType.wat emptyDB data = runOneDB data := by
  have hfold : data.foldl (fun b p => alSet b p.1 p.2) [] = data := by
    have := foldl_alSet_of_disjoint data [] hnd
      (fun k _ => by rw [alKeys]; simp)
    simpa using this
  unfold ingestRun CommonCrawlProcessor.store_batch_in_mongodb
  rw [if_neg hne]
  rw [show BatchProcessor.init emptyDB = (⟨100, 0, 0, [], [], 1⟩ : Proc) from rfl]
  rw [storeBatchLoop_no_flush RawFileType.wat data emptyDB ⟨100, 0, 0, [], [], 1⟩ []
    rfl (by simpa using hlen)]
  dsimp only
  rw [hfold]
  rw [if_pos hne]
  rw [insert_webpage_data_fresh data hnd hne hlen]

theorem init_runOneDB (data : List (String × WebpageData))
    (hne : encPages data ≠ []) :
    BatchProcessor.init (runOneDB data) =
      ⟨100, 1, (encPages data).length, [], encPages data, 1⟩ := by
  have hpos : (0 : Nat) < (encPages data).length := List.length_pos.mpr hne
  unfold BatchProcessor.init
  simp only [runOneDB]
  unfold BatchProcessor.append_last_batch_info
  dsimp only
  rw [if_pos hpos]
  rfl

theorem insert_batch_resume (data : List (String × WebpageData))
    (hnd : (data.map Prod.fst).Nodup) (hne : data ≠ []) (hlen : data.length ≤ 99) :
    BatchProcessor.insert_batch (runOneDB data)
        ⟨100, 1, (encPages data).length, [], encPages data, 1⟩ (encPages data) =
      (runOneDB data,
       ⟨100, 1, (encPages data).length, encPages data, encPages data, 1⟩,
       [Event.storeWrite 1, Event.lookupAssign]) := by
  have helnd := encKeys_nodup data hnd
  have helne := encPages_ne_nil data hne
  have hellen : (encPages data).length ≤ 99 := by
    rw [encPages_length]
    exact hlen
  have hmem : ∀ p ∈ encPages data, alFind (encPages data) p.1 = some p.2 :=
    fun p hp => alFind_of_mem_nodup _ p.1 p.2 hp helnd
  have hpend : (encPages data).map (fun p => (p.1, (1 : Nat))) ≠ [] := by
    simpa using helne
  have hlknd : (alKeys ((encPages data).map (fun p => (p.1, (1 : Nat))))).Nodup := by
    rw [alKeys, List.map_map]
    exact helnd
  have hub2 : CommonCrawlProcessed.update_batch (runOneDB data).webpages 1
      (encPages data) = (runOneDB data).webpages := by
    unfold CommonCrawlProcessed.update_batch
    rw [show (runOneDB data).webpages = [(1, encPages data)] from rfl]
    rw [show alFind [(1, encPages data)] 1 = some (encPages data) from rfl]
    show alSet [(1, encPages data)] 1
      (updateBatchContents (encPages data) (encPages data)) = [(1, encPages data)]
    rw [updateBatchContents_self (encPages data) (encPages data) hmem]
    exact alSet_of_find_eq _ 1 (encPages data) rfl
  have hlk2 : WebpageUrlLookup.bulk_update_webpage_lookup (runOneDB data).lookup
      ((encPages data).map (fun p => (p.1, 1))) = (runOneDB data).lookup := by
    unfold WebpageUrlLookup.bulk_update_webpage_lookup
    rw [show (runOneDB data).lookup =
      (encPages data).map (fun p => (p.1, (1 : Nat))) from rfl]
    exact bulkAssign_self _ _ (fun p hp => alFind_of_mem_nodup _ p.1 p.2 hp hlknd)
  unfold BatchProcessor.insert_batch
  rw [insertLoop_no_commit_same (encPages data) (runOneDB data)
    ⟨100, 1, (encPages data).length, [], encPages data, 1⟩ [] rfl hellen hmem]
  dsimp only
  rw [if_pos helne]
  simp only [List.nil_append]
  refine Prod.ext ?_ (Prod.ext ?_ ?_)
  · dsimp only
    rw [process_batch_db_eq]
    dsimp only
    rw [if_neg hpend, hub2, hlk2]
  · dsimp only
    rw [process_batch_proc_partial_eq _ _ _
      (show (Proc.mk 100 1 (encPages data).length [] (encPages data) 1).batch_contents
        ≠ [] from helne)]
  · dsimp only
    rw [process_batch_events _ _ _ _ hpend]

theorem insert_webpage_data_resume (data : List (String × WebpageData))
    (hnd : (data.map Prod.fst).Nodup) (hne : data ≠ []) (hlen : data.length ≤ 99) :
    BatchProcessor.insert_webpage_data (runOneDB data)
        ⟨100, 1, (encPages data).length, [], encPages data, 1⟩ data =
      (runOneDB data,
       ⟨100, 1, (encPages data).length, encPages data, encPages data, 1⟩,
       [Event.storeWrite 1, Event.lookupAssign, Event.cursorAdvance]) := by
  unfold BatchProcessor.insert_webpage_data
  rw [if_neg hne]
  rw [map_encoded_eq_of_nodup data hnd]
  rw [insert_batch_resume data hnd hne hlen]
  dsimp only
  unfold BatchProcessor.update_index_tracking
  rfl

theorem ingest_second_run (data : List (String × WebpageData))
    (hnd : (data.map Prod.fst).Nodup) (hne : data ≠ []) (hlen : data.length ≤ 99) :
    ingestRun RawFileType.wat (runOneDB data) data = runOneDB data := by
  have helne := encPages_ne_nil data hne
  have hfold : data.foldl (fun b p => alSet b p.1 p.2) [] = data := by
    have := foldl_alSet_of_disjoint data [] hnd
      (fun k _ => by rw [alKeys]; simp)
    simpa using this
  unfold ingestRun CommonCrawlProcessor.store_batch_in_mongodb
  rw [if_neg hne]
  rw [init_runOneDB data helne]
  rw [storeBatchLoop_no_flush RawFileType.wat data (runOneDB data)
    ⟨100, 1, (encPages data).length, [], encPages data, 1⟩ [] rfl (by simpa using hlen)]
  dsimp only
  rw [hfold]
  rw [if_pos hne]
  rw [insert_webpage_data_resume data hnd hne hlen]

set_option maxRecDepth 100000 in
set_option maxHeartbeats 2000000 in
/-- C3 counterexample: re-running a WAT ingestion of 100 pages after a
successful completion is not idempotent.  The first run seals batch 1 with a
full commit and records last_item_index = 0, so the second run's processor
opens the fresh batch 2 rather than resuming batch 1, and re-inserts every
page: the batch count grows from 1 to 2 and each record is duplicated. -/
theorem claim3_counterexample :
    BatchProcessor.count_documents
      (ingestRun RawFileType.wat emptyDB testPages100) = 1 ∧
    BatchProcessor.count_documents
      (ingestRun RawFileType.wat (ingestRun RawFileType.wat emptyDB testPages100)
        testPages100) = 2 := by
  decide

/-- C3 (amended): ingestion re-runs are idempotent only when the dataset fits
inside one partial batch.  For duplicate-free, nonempty page data of fewer
than batch_size records, a second WAT ingestion run over the same data leaves
the database — batch count, batch contents, lookup table and tracking
document — exactly as the first run left it, because the second run resumes
the still-open partial batch and every write merges identical values in
place.  For datasets that seal a full batch this fails (see the
counterexample). -/
theorem claim3_ingest_idempotent (data : List (String × WebpageData))
    (hnd : (data.map Prod.fst).Nodup) (hne : data ≠ []) (hlen : data.length ≤ 99) :
    ingestRun RawFileType.wat (ingestRun RawFileType.wat emptyDB data) data =
      ingestRun RawFileType.wat emptyDB data := by
  rw [ingest_first_run data hnd hne hlen]
  exact ingest_second_run data hnd hne hlen

/-- Witness for C3's amended theorem on a concrete two-page dataset. -/
theorem claim3_ingest_idempotent_witness :
    (([("a", ({ url := "a" } : WebpageData)), ("b", { url := "b" })]).map
      Prod.fst).Nodup ∧
    ingestRun RawFileType.wat
        (ingestRun RawFileType.wat emptyDB
          [("a", { url := "a" }), ("b", { url := "b" })])
        [("a", { url := "a" }), ("b", { url := "b" })] =
      ingestRun RawFileType.wat emptyDB
        [("a", { url := "a" }), ("b", { url := "b" })] :=
  ⟨by decide,
   claim3_ingest_idempotent [("a", { url := "a" }), ("b", { url := "b" })]
     (by decide) (by decide) (by decide)⟩

end SurfShelter
